import Mathlib

/-!
Verification of the zair non-membership core against its specification.

The development shallowly embeds the Rust source of the repository:
byte strings become `List Nat` (each entry a byte value), machine
integers become `Nat`, fallible functions return `Except`, and the
pool-specific hashers stay abstract type parameters exactly where the
Rust code is generic over them.
-/

set_option maxHeartbeats 1600000

namespace Zair

/-- A byte string (`[u8; N]` / `Vec<u8>` in the source): a list of byte values. -/
abbrev Bytes := List Nat

/-- Comparison of two unsigned machine integers, mirroring Rust `Ord` on `u8`/`u64`. -/
def natCmp (a b : Nat) : Ordering :=
  if a < b then .lt else if a = b then .eq else .gt

theorem natCmp_eq_lt {a b : Nat} : natCmp a b = .lt ↔ a < b := by
  unfold natCmp
  split
  · simp_all
  · split <;> simp_all

theorem natCmp_eq_eq {a b : Nat} : natCmp a b = .eq ↔ a = b := by
  unfold natCmp
  split
  · constructor
    · intro h; cases h
    · intro h; omega
  · split <;> simp_all

theorem natCmp_eq_gt {a b : Nat} : natCmp a b = .gt ↔ b < a := by
  unfold natCmp
  split
  · constructor
    · intro h; cases h
    · intro h; omega
  · split
    · constructor
      · intro h; cases h
      · intro h; omega
    · constructor
      · intro _; omega
      · intro _; rfl

theorem natCmp_self (a : Nat) : natCmp a a = .eq := by
  unfold natCmp
  simp

/-- Lexicographic comparison of byte strings, mirroring Rust `Ord` on
byte slices and fixed-size byte arrays. -/
def lexCmp : Bytes → Bytes → Ordering
  | [], [] => .eq
  | [], _ :: _ => .lt
  | _ :: _, [] => .gt
  | a :: aRest, b :: bRest =>
    match natCmp a b with
    | .eq => lexCmp aRest bRest
    | o => o

theorem lexCmp_eq_eq : ∀ (a b : Bytes), lexCmp a b = .eq ↔ a = b
  | [], [] => by simp [lexCmp]
  | [], _ :: _ => by simp [lexCmp]
  | _ :: _, [] => by simp [lexCmp]
  | x :: xs, y :: ys => by
    rcases Nat.lt_trichotomy x y with h | h | h
    · simp only [lexCmp, natCmp_eq_lt.mpr h]
      constructor
      · intro hc; cases hc
      · intro hc
        injection hc with h1 _
        exact absurd h1 (by omega)
    · subst h
      simp only [lexCmp, natCmp_self, lexCmp_eq_eq xs ys, List.cons.injEq, true_and]
    · simp only [lexCmp, natCmp_eq_gt.mpr h]
      constructor
      · intro hc; cases hc
      · intro hc
        injection hc with h1 _
        exact absurd h1 (by omega)

theorem lexCmp_refl (a : Bytes) : lexCmp a a = .eq := (lexCmp_eq_eq a a).mpr rfl

theorem lexCmp_swap : ∀ (a b : Bytes), lexCmp b a = (lexCmp a b).swap
  | [], [] => rfl
  | [], _ :: _ => rfl
  | _ :: _, [] => rfl
  | x :: xs, y :: ys => by
    rcases Nat.lt_trichotomy x y with h | h | h
    · simp only [lexCmp, natCmp_eq_lt.mpr h, natCmp_eq_gt.mpr h, Ordering.swap]
    · subst h
      simp only [lexCmp, natCmp_self, lexCmp_swap xs ys]
    · simp only [lexCmp, natCmp_eq_gt.mpr h, natCmp_eq_lt.mpr h, Ordering.swap]

theorem lexCmp_eq_gt_iff {a b : Bytes} : lexCmp a b = .gt ↔ lexCmp b a = .lt := by
  rw [lexCmp_swap a b]
  cases lexCmp a b <;> simp [Ordering.swap]

theorem lexCmp_trans_lt :
    ∀ (a b c : Bytes), lexCmp a b = .lt → lexCmp b c = .lt → lexCmp a c = .lt
  | [], [], _ :: _, _, _ => rfl
  | [], _ :: _, _ :: _, _, _ => rfl
  | [], [], [], h, _ => by simp [lexCmp] at h
  | [], _ :: _, [], _, h2 => by simp [lexCmp] at h2
  | _ :: _, [], _, h1, _ => by simp [lexCmp] at h1
  | _ :: _, _ :: _, [], _, h2 => by simp [lexCmp] at h2
  | x :: xs, y :: ys, z :: zs, h1, h2 => by
    simp only [lexCmp] at h1 h2 ⊢
    rcases Nat.lt_trichotomy x y with hxy | hxy | hxy
    · rcases Nat.lt_trichotomy y z with hyz | hyz | hyz
      · simp only [natCmp_eq_lt.mpr (Nat.lt_trans hxy hyz)]
      · subst hyz
        simp only [natCmp_eq_lt.mpr hxy]
      · simp only [natCmp_eq_gt.mpr hyz] at h2
        cases h2
    · subst hxy
      rcases Nat.lt_trichotomy x z with hyz | hyz | hyz
      · simp only [natCmp_eq_lt.mpr hyz]
      · subst hyz
        simp only [natCmp_self] at h1 h2 ⊢
        exact lexCmp_trans_lt xs ys zs h1 h2
      · simp only [natCmp_eq_gt.mpr hyz] at h2
        cases h2
    · simp only [natCmp_eq_gt.mpr hxy] at h1
      cases h1

/-- The big-endian numeric value of a byte string. -/
def beVal : Bytes → Nat
  | [] => 0
  | x :: xs => x * 256 ^ xs.length + beVal xs

theorem beVal_lt_of_bounded : ∀ {l : Bytes}, (∀ x ∈ l, x < 256) → beVal l < 256 ^ l.length
  | [], _ => by simp [beVal]
  | x :: xs, h => by
    have hx : x < 256 := h x (by simp)
    have ih := beVal_lt_of_bounded (l := xs) (fun y hy => h y (by simp [hy]))
    simp only [beVal, List.length_cons, pow_succ]
    calc x * 256 ^ xs.length + beVal xs
        < x * 256 ^ xs.length + 256 ^ xs.length := by omega
      _ = (x + 1) * 256 ^ xs.length := by ring
      _ ≤ 256 * 256 ^ xs.length := Nat.mul_le_mul_right _ (by omega)
      _ = 256 ^ xs.length * 256 := by ring

/-- On equal-length byte strings with in-range bytes, lexicographic comparison agrees
with comparison of the big-endian values. -/
theorem lexCmp_eq_natCmp_beVal :
    ∀ (a b : Bytes), a.length = b.length → (∀ x ∈ a, x < 256) → (∀ x ∈ b, x < 256) →
      lexCmp a b = natCmp (beVal a) (beVal b)
  | [], [], _, _, _ => by simp [lexCmp, beVal, natCmp]
  | [], _ :: _, h, _, _ => by simp at h
  | _ :: _, [], h, _, _ => by simp at h
  | x :: xs, y :: ys, hlen, ha, hb => by
    have hlen' : xs.length = ys.length := by simpa using hlen
    have hxs : ∀ v ∈ xs, v < 256 := fun v hv => ha v (by simp [hv])
    have hys : ∀ v ∈ ys, v < 256 := fun v hv => hb v (by simp [hv])
    have hxlt := beVal_lt_of_bounded hxs
    have hylt := beVal_lt_of_bounded hys
    rcases Nat.lt_trichotomy x y with h | h | h
    · have hv : x * 256 ^ xs.length + beVal xs < y * 256 ^ ys.length + beVal ys := by
        calc x * 256 ^ xs.length + beVal xs
            < x * 256 ^ xs.length + 256 ^ xs.length := by omega
          _ = (x + 1) * 256 ^ xs.length := by ring
          _ ≤ y * 256 ^ xs.length := Nat.mul_le_mul_right _ (by omega)
          _ = y * 256 ^ ys.length := by rw [hlen']
          _ ≤ y * 256 ^ ys.length + beVal ys := Nat.le_add_right _ _
      simp only [lexCmp, beVal, natCmp_eq_lt.mpr h, natCmp_eq_lt.mpr hv]
    · subst h
      simp only [lexCmp, beVal, natCmp_self, hlen',
        lexCmp_eq_natCmp_beVal xs ys hlen' hxs hys]
      cases hc : natCmp (beVal xs) (beVal ys) with
      | lt =>
        have := natCmp_eq_lt.mp hc
        rw [natCmp_eq_lt.mpr (by omega)]
      | eq =>
        have := natCmp_eq_eq.mp hc
        rw [natCmp_eq_eq.mpr (by omega)]
      | gt =>
        have := natCmp_eq_gt.mp hc
        rw [natCmp_eq_gt.mpr (by omega)]
    · have hv : y * 256 ^ ys.length + beVal ys < x * 256 ^ xs.length + beVal xs := by
        calc y * 256 ^ ys.length + beVal ys
            < y * 256 ^ ys.length + 256 ^ ys.length := by omega
          _ = (y + 1) * 256 ^ ys.length := by ring
          _ ≤ x * 256 ^ ys.length := Nat.mul_le_mul_right _ (by omega)
          _ = x * 256 ^ xs.length := by rw [hlen']
          _ ≤ x * 256 ^ xs.length + beVal xs := Nat.le_add_right _ _
      simp only [lexCmp, beVal, natCmp_eq_gt.mpr h, natCmp_eq_gt.mpr hv]

/-- The little-endian numeric value of a byte string (the integer whose
little-endian encoding the string is). -/
def leVal (l : Bytes) : Nat := beVal l.reverse

theorem beVal_append_singleton : ∀ (l : Bytes) (x : Nat), beVal (l ++ [x]) = 256 * beVal l + x
  | [], x => by simp [beVal]
  | y :: ys, x => by
    have ih := beVal_append_singleton ys x
    show y * 256 ^ (ys ++ [x]).length + beVal (ys ++ [x]) =
      256 * (y * 256 ^ ys.length + beVal ys) + x
    rw [ih, List.length_append]
    simp only [List.length_cons, List.length_nil]
    ring

theorem leVal_nil : leVal [] = 0 := rfl

theorem leVal_cons (x : Nat) (xs : Bytes) : leVal (x :: xs) = x + 256 * leVal xs := by
  simp only [leVal, List.reverse_cons, beVal_append_singleton]
  omega

/-- Little-endian encoding of a natural number into `w` bytes, mirroring
`u64::to_le_bytes` and the canonical field-element representation. -/
def leBytes : Nat → Nat → Bytes
  | 0, _ => []
  | w + 1, n => n % 256 :: leBytes w (n / 256)

theorem leBytes_length : ∀ (w n : Nat), (leBytes w n).length = w
  | 0, _ => rfl
  | w + 1, n => by simp [leBytes, leBytes_length w]

theorem leBytes_bounded : ∀ (w n : Nat), ∀ x ∈ leBytes w n, x < 256
  | 0, _ => by simp [leBytes]
  | w + 1, n => by
    simp only [leBytes, List.mem_cons]
    rintro x (rfl | hx)
    · exact Nat.mod_lt _ (by omega)
    · exact leBytes_bounded w (n / 256) x hx

theorem mod_mul_split (n K : Nat) (hK : 0 < K) :
    n % (256 * K) = n % 256 + 256 * (n / 256 % K) := by
  have h1 : 256 * (n / 256) + n % 256 = n := Nat.div_add_mod n 256
  have h2 : K * (n / 256 / K) + n / 256 % K = n / 256 := Nat.div_add_mod (n / 256) K
  have hr : n % 256 < 256 := Nat.mod_lt _ (by omega)
  have hm : n / 256 % K < K := Nat.mod_lt _ hK
  have hn : n = (256 * K) * (n / 256 / K) + (n % 256 + 256 * (n / 256 % K)) := by
    calc n = 256 * (n / 256) + n % 256 := h1.symm
    _ = 256 * (K * (n / 256 / K) + n / 256 % K) + n % 256 := by rw [h2]
    _ = (256 * K) * (n / 256 / K) + (n % 256 + 256 * (n / 256 % K)) := by ring
  conv_lhs => rw [hn]
  rw [Nat.mul_add_mod]
  exact Nat.mod_eq_of_lt (by omega)

theorem leVal_leBytes : ∀ (w n : Nat), leVal (leBytes w n) = n % 256 ^ w
  | 0, n => by
    show leVal [] = n % 256 ^ 0
    rw [leVal_nil]
    simp [Nat.mod_one]
  | w + 1, n => by
    rw [leBytes, leVal_cons, leVal_leBytes w]
    have h256 : (0 : Nat) < 256 ^ w := Nat.pos_pow_of_pos _ (by omega)
    rw [pow_succ, Nat.mul_comm (256 ^ w) 256, mod_mul_split n (256 ^ w) h256]

end Zair

namespace Zair

/-! ## Pools, streaming partition and the rs-merkle snapshot tree
(`crates/non-membership-proofs/src/lib.rs`) -/

/-- Zcash pools (`Pool` in `non-membership-proofs/src/lib.rs`). -/
inductive Pool
  | Sapling
  | Orchard
deriving DecidableEq, Repr

/-- A pool-tagged nullifier as streamed from a source
(`PoolNullifier { pool, nullifier }` of the `chain_nullifiers` module). -/
structure PoolNullifier where
  pool : Pool
  nullifier : Bytes
deriving DecidableEq, Repr

/-- `partition_by_pool`: drain the stream, appending each nullifier to the buffer
of its pool; the first stream error aborts and propagates with no partial result.
The finite stream is modelled as the list of its items. -/
def partition_by_pool {E : Type} : List (Except E PoolNullifier) → Except E (List Bytes × List Bytes)
  | [] => .ok ([], [])
  | .error e :: _ => .error e
  | .ok pn :: rest =>
    match partition_by_pool rest with
    | .error e => .error e
    | .ok (sapling, orchard) =>
      match pn.pool with
      | .Sapling => .ok (pn.nullifier :: sapling, orchard)
      | .Orchard => .ok (sapling, pn.nullifier :: orchard)

/-- Errors of the snapshot Merkle-tree builder (`MerkleTreeError`). -/
inductive MerkleTreeError
  | NotSorted
deriving DecidableEq, Repr

/-- Rust `slice::is_sorted` under the byte-lexicographic nullifier order. -/
def is_sorted : List Bytes → Bool
  | [] => true
  | [_] => true
  | a :: b :: rest => decide (lexCmp a b ≠ Ordering.gt) && is_sorted (b :: rest)

/-- Modelled from the spec: `Nullifier::MIN = 0x00…00` (the `zair-core` byte
primitives module declaring the `Nullifier` newtype is not among the provided
sources; §4.1 of the spec defines the constants). -/
def minNullifier : Bytes := List.replicate 32 0

/-- Modelled from the spec: `Nullifier::MAX = 0xFF…FF` (§4.1 of the spec). -/
def maxNullifier : Bytes := List.replicate 32 255

/-- `build_leaf`: the 64-byte concatenation `nf1 ‖ nf2`. -/
def build_leaf (nf1 nf2 : Bytes) : Bytes := nf1 ++ nf2

/-- Modelled from the spec: the external `rs_merkle::MerkleTree` collaborator,
observed by the repository through `leaves()`, `leaves_len()` and `root()`.
It is represented by its list of leaf hashes. -/
structure RsMerkleTree (H : Type) where
  leaves : List H
deriving DecidableEq

/-- Modelled from the spec: one parent layer of the external rs-merkle backend —
adjacent pairs combined, an odd trailing node promoted unchanged. -/
def rsParentLayer {H : Type} (combine : H → H → H) : List H → List H
  | [] => []
  | [a] => [a]
  | a :: b :: rest => combine a b :: rsParentLayer combine rest

/-- Helper for `RsMerkleTree.root`, with fuel bounding the number of layers. -/
def rsRootGo {H : Type} (combine : H → H → H) : Nat → List H → Option H
  | 0, layer => layer.head?
  | fuel + 1, layer =>
    if layer.length ≤ 1 then layer.head?
    else rsRootGo combine fuel (rsParentLayer combine layer)

/-- Modelled from the spec: the rs-merkle root — `none` for an empty tree (the
repository test `build_merkle_tree_empty` pins `root().is_none()`), otherwise
the iterated parent layers collapsed to a single hash. -/
def RsMerkleTree.root {H : Type} (t : RsMerkleTree H) (combine : H → H → H) : Option H :=
  rsRootGo combine t.leaves.length t.leaves

/-- `build_merkle_tree` from `non-membership-proofs/src/lib.rs`, generic over the
hasher: empty input yields the empty tree, unsorted input is rejected, and the
leaves are the front gap `(MIN, first)`, one gap per adjacent window, and the
back gap `(last, MAX)`. -/
def build_merkle_tree {H : Type} (hash : Bytes → H) (nullifiers : List Bytes) :
    Except MerkleTreeError (RsMerkleTree H) :=
  match nullifiers with
  | [] => .ok ⟨[]⟩
  | first :: rest =>
    if !is_sorted (first :: rest) then .error .NotSorted
    else
      let lastNf := (first :: rest).getLast (by simp)
      let front := hash (build_leaf minNullifier first)
      let back := hash (build_leaf lastNf maxNullifier)
      let middles := (List.zip (first :: rest) rest).map (fun p => hash (build_leaf p.1 p.2))
      .ok ⟨front :: (middles ++ [back])⟩

/-! ## Sorting and sanitisation -/

/-- Insertion step of an insertion sort under a comparator. -/
def insertSorted {β : Type} (cmp : β → β → Ordering) (x : β) : List β → List β
  | [] => [x]
  | y :: ys => if cmp x y = .gt then y :: insertSorted cmp x ys else x :: y :: ys

/-- Sorting under a comparator (insertion sort); observationally equal to the
source's `sort_unstable_by` for the total orders used here. -/
def sortByCmp {β : Type} (cmp : β → β → Ordering) (l : List β) : List β :=
  l.foldr (insertSorted cmp) []

/-- Helper of `dedupAdj`, carrying the previously kept element. -/
def dedupAdjGo {β : Type} (eqb : β → β → Bool) : β → List β → List β
  | _, [] => []
  | prev, b :: bs => if eqb b prev then dedupAdjGo eqb prev bs else b :: dedupAdjGo eqb b bs

/-- Rust `Vec::dedup`/`dedup_by`: remove all but the first element of every run
of consecutive equal elements. -/
def dedupAdj {β : Type} (eqb : β → β → Bool) : List β → List β
  | [] => []
  | a :: rest => a :: dedupAdjGo eqb a rest

/-- Modelled from the spec: `SanitiseNullifiers::new` — copy in, sort (unstable)
under the byte order, deduplicate adjacent-equal (§4.1 of the spec; the
`zair-core` module is not among the provided sources). -/
def sanitise (ns : List Bytes) : List Bytes :=
  dedupAdj (fun a b => a == b) (sortByCmp lexCmp ns)

end Zair

namespace Zair

/-! ## The dense gap tree (`crates/zair-nonmembership/src/gap_tree/dense.rs`) -/

/-- Errors of the non-membership trees (`MerklePathError` in
`zair-nonmembership/src/core.rs`; the `WitnessError` string payload and the
impossible `PositionConversionError` are not needed by the dense/sparse paths
modelled here). -/
inductive MerklePathError
  | NotMarked (p : Nat)
  | LeavesOverflow (n : Nat)
  | NonCanonicalOrchardNullifier (set : String) (index : Nat)
  | Unexpected (msg : String)
deriving DecidableEq, Repr

/-- The fixed tree depth. Modelled from the spec: `NON_MEMBERSHIP_TREE_DEPTH`
lives in the `node` module, which is not among the provided sources; the spec
fixes `D = 32`, matching `TREE_LEVEL_COUNT = 33` in `gap_tree/dense.rs`. -/
def NON_MEMBERSHIP_TREE_DEPTH : Nat := 32

/-- `validate_leaf_count` from `gap_tree/dense.rs`. -/
def validate_leaf_count (leaf_count : Nat) : Except MerklePathError Unit :=
  if leaf_count = 0 then
    .error (.Unexpected "gap-tree leaf count must be greater than zero")
  else if leaf_count ≥ 2 ^ 32 then .error (.LeavesOverflow leaf_count)
  else .ok ()

/-- Width of a level of the dense layout (`level_layout` in `gap_tree/dense.rs`):
level 0 holds `leaf_count`, each higher level the ceiling half. -/
def widthAt (leaf_count : Nat) : Nat → Nat
  | 0 => leaf_count
  | l + 1 => (widthAt leaf_count l + 1) / 2

/-- Offset of a level in the flat node array (`level_layout`). -/
def offsetAt (leaf_count : Nat) : Nat → Nat
  | 0 => 0
  | l + 1 => offsetAt leaf_count l + widthAt leaf_count l

/-- Total node count of the 33-level dense layout (`level_layout`'s final offset). -/
def totalNodes (leaf_count : Nat) : Nat := offsetAt leaf_count 33

/-- `DenseGapTree`. The cached per-level widths and offsets and the `u64` copy of
the leaf count are pure functions of `leaf_count` (`level_layout`), so they are
not duplicated as fields. -/
structure DenseGapTree where
  leaf_count : Nat
  nodes : List Bytes
  root : Bytes
deriving DecidableEq, Repr

/-- One reduction level of `DenseGapTree::from_leaves`: combine adjacent pairs,
pairing a trailing odd node with the level's empty root. -/
def combinePairs {α : Type} (c : α → α → α) (e : α) : List α → List α
  | [] => []
  | [a] => [c a e]
  | a :: b :: rest => c a b :: combinePairs c e rest

/-- The nodes at a given level of the dense build (level 0 being the leaves). -/
def buildLevel {α : Type} (combine : Nat → α → α → α) (empty_root : Nat → α)
    (leaves : List α) : Nat → List α
  | 0 => leaves
  | l + 1 => combinePairs (combine l) (empty_root l) (buildLevel combine empty_root leaves l)

/-- `DenseGapTree::from_nodes`. -/
def DenseGapTree.from_nodes (leaf_count total_nodes : Nat) (nodes : List Bytes) :
    Except MerklePathError DenseGapTree :=
  if nodes.length ≠ total_nodes then .error (.Unexpected "gap-tree node count mismatch")
  else
    match nodes.getLast? with
    | none => .error (.Unexpected "gap-tree must contain at least one node")
    | some root => .ok ⟨leaf_count, nodes, root⟩

/-- `DenseGapTree::from_leaves`, generic over the node type `α`, the per-level
empty roots, the internal combiner and the byte serialisation of nodes, exactly
as the Rust function is generic over `T`, `empty_root`, `combine`, `to_bytes`.
The flat node vector concatenates the 33 levels in order. -/
def DenseGapTree.from_leaves {α : Type} (empty_root : Nat → α) (combine : Nat → α → α → α)
    (to_bytes : α → Bytes) (leaves : List α) : Except MerklePathError DenseGapTree :=
  match validate_leaf_count leaves.length with
  | .error e => .error e
  | .ok _ =>
    let nodes := ((List.range 33).map
      (fun l => (buildLevel combine empty_root leaves l).map to_bytes)).flatten
    DenseGapTree.from_nodes leaves.length (totalNodes leaves.length) nodes

/-- `DenseGapTree::node_at` (in-range by construction in the source; out-of-range
reads are defaulted). -/
def DenseGapTree.node_at (t : DenseGapTree) (level idx : Nat) : Bytes :=
  t.nodes.getD (offsetAt t.leaf_count level + idx) []

/-- The witness loop of `DenseGapTree::witness_bytes`: at each of the 32 levels,
take the stored sibling when it lies inside the level's width and the empty root
of the level otherwise, then halve the index. -/
def witnessLevels (t : DenseGapTree) (empty_root_bytes : Nat → Bytes) :
    Nat → Nat → Nat → List Bytes
  | _, _, 0 => []
  | index, level, r + 1 =>
    let width := widthAt t.leaf_count level
    let sibling := if index % 2 = 0 then index + 1 else index - 1
    let sib := if sibling < width then t.node_at level sibling else empty_root_bytes level
    sib :: witnessLevels t empty_root_bytes (index / 2) (level + 1) r

/-- `DenseGapTree::witness_bytes`. -/
def DenseGapTree.witness_bytes (t : DenseGapTree) (leaf_position : Nat)
    (empty_root_bytes : Nat → Bytes) : Except MerklePathError (List Bytes) :=
  if leaf_position ≥ t.leaf_count then .error (.NotMarked leaf_position)
  else .ok (witnessLevels t empty_root_bytes leaf_position 0 32)

/-- `DenseGapTree::to_bytes`: little-endian `u64` leaf count followed by all
nodes in level order. -/
def DenseGapTree.to_bytes (t : DenseGapTree) : Bytes :=
  leBytes 8 t.leaf_count ++ t.nodes.flatten

/-- `chunks_exact(32)`: split into exact 32-byte chunks (a shorter remainder is
dropped; the caller has already checked the total length). -/
def chunksExact32 (l : Bytes) : List Bytes :=
  if _h : 32 ≤ l.length then l.take 32 :: chunksExact32 (l.drop 32) else []
termination_by l.length
decreasing_by simp only [List.length_drop]; omega

/-- `DenseGapTree::from_bytes`. -/
def DenseGapTree.from_bytes (bytes : Bytes) : Except MerklePathError DenseGapTree :=
  if bytes.length < 8 then .error (.Unexpected "gap-tree file is too short")
  else
    let leaf_count := leVal (bytes.take 8)
    match validate_leaf_count leaf_count with
    | .error e => .error e
    | .ok _ =>
      if bytes.length ≠ 8 + totalNodes leaf_count * 32 then
        .error (.Unexpected "gap-tree file length mismatch")
      else
        DenseGapTree.from_nodes leaf_count (totalNodes leaf_count) (chunksExact32 (bytes.drop 8))

/-- Recomputing a root from a leaf hash and a witness: at each level the current
hash is combined with the sibling, in the order given by the parity of the index
at that level. -/
def recomputeRoot (combineB : Nat → Bytes → Bytes → Bytes) :
    Nat → Nat → Bytes → List Bytes → Bytes
  | _, _, cur, [] => cur
  | level, idx, cur, s :: rest =>
    recomputeRoot combineB (level + 1) (idx / 2)
      (if idx % 2 = 0 then combineB level cur s else combineB level s cur) rest

end Zair

namespace Zair

/-! ## Layout lemmas for the dense gap tree -/

theorem combinePairs_length {α : Type} (c : α → α → α) (e : α) :
    ∀ xs : List α, (combinePairs c e xs).length = (xs.length + 1) / 2
  | [] => by simp [combinePairs]
  | [_] => by simp [combinePairs]
  | _ :: _ :: rest => by
    simp only [combinePairs, List.length_cons, combinePairs_length c e rest]
    omega

theorem buildLevel_length {α : Type} (combine : Nat → α → α → α) (empty_root : Nat → α)
    (leaves : List α) :
    ∀ l, (buildLevel combine empty_root leaves l).length = widthAt leaves.length l
  | 0 => rfl
  | l + 1 => by
    simp only [buildLevel, widthAt, combinePairs_length,
      buildLevel_length combine empty_root leaves l]

theorem widthAt_eq (n : Nat) (hn : 1 ≤ n) : ∀ l, widthAt n l = (n - 1) / 2 ^ l + 1
  | 0 => by
    simp only [widthAt, pow_zero, Nat.div_one]
    omega
  | l + 1 => by
    rw [widthAt, widthAt_eq n hn l, pow_succ]
    have hdd : (n - 1) / 2 ^ l / 2 = (n - 1) / (2 ^ l * 2) := Nat.div_div_eq_div_mul _ _ _
    rw [← hdd]
    have key : ∀ x : Nat, (x + 1 + 1) / 2 = x / 2 + 1 := by omega
    exact key ((n - 1) / 2 ^ l)

theorem widthAt_pos (n : Nat) (hn : 1 ≤ n) (l : Nat) : 1 ≤ widthAt n l := by
  rw [widthAt_eq n hn l]
  exact Nat.le_add_left 1 _

theorem widthAt_32 (n : Nat) (hn : 1 ≤ n) (hlt : n < 2 ^ 32) : widthAt n 32 = 1 := by
  rw [widthAt_eq n hn 32]
  have : (n - 1) / 2 ^ 32 = 0 := Nat.div_eq_of_lt (by omega)
  omega

theorem combinePairs_getElem? {α : Type} (c : α → α → α) (e : α) :
    ∀ (xs : List α) (j : Nat),
      (combinePairs c e xs)[j]? = (xs[2 * j]?).map (fun a => c a (xs.getD (2 * j + 1) e))
  | [], j => by simp [combinePairs]
  | [a], 0 => by simp [combinePairs, List.getD]
  | [a], j + 1 => by
    simp only [combinePairs]
    have h2 : 2 * (j + 1) = 2 * j + 1 + 1 := by ring
    simp [h2]
  | a :: b :: rest, 0 => by
    simp [combinePairs, List.getD]
  | a :: b :: rest, j + 1 => by
    have h1 : 2 * (j + 1) = 2 * j + 1 + 1 := by ring
    have h2 : 2 * (j + 1) + 1 = 2 * j + 1 + 1 + 1 := by ring
    simp only [combinePairs, List.getElem?_cons_succ, h1, h2, List.getD_cons_succ]
    exact combinePairs_getElem? c e rest j

/-- Indexing a flattened list of blocks at a block-local position. -/
theorem flatten_getElem_block {β : Type} :
    ∀ (bs : List (List β)) (k s : Nat), s < (bs.getD k []).length →
      bs.flatten[((bs.take k).map List.length).sum + s]? = (bs.getD k [])[s]?
  | [], k, s => by
    intro hs
    simp [List.getD] at hs
  | b :: bs, 0, s => by
    intro hs
    simp only [List.getD_cons_zero] at hs ⊢
    simp only [List.take_zero, List.map_nil, List.sum_nil, Nat.zero_add, List.flatten_cons]
    exact List.getElem?_append_left hs
  | b :: bs, k + 1, s => by
    intro hs
    simp only [List.getD_cons_succ] at hs ⊢
    simp only [List.take_succ_cons, List.map_cons, List.sum_cons, List.flatten_cons]
    rw [Nat.add_assoc, List.getElem?_append_right (Nat.le_add_right _ _)]
    have harith : b.length + (((bs.take k).map List.length).sum + s) - b.length
        = ((bs.take k).map List.length).sum + s := by omega
    rw [harith]
    exact flatten_getElem_block bs k s hs

theorem take_succ_len_sum {β : Type} :
    ∀ (bs : List (List β)) (k : Nat), k < bs.length →
      ((bs.take (k + 1)).map List.length).sum
        = ((bs.take k).map List.length).sum + (bs.getD k []).length
  | [], k, h => by simp at h
  | b :: bs, 0, _ => by simp [List.getD]
  | b :: bs, k + 1, h => by
    simp only [List.take_succ_cons, List.map_cons, List.sum_cons, List.getD_cons_succ]
    rw [take_succ_len_sum bs k (by simpa using h)]
    omega

end Zair

namespace Zair

section DenseBuild

variable {α : Type} (empty_root : Nat → α) (combine : Nat → α → α → α)
variable (to_bytes : α → Bytes) (leaves : List α)

/-- The 33 per-level byte blocks of the dense build. -/
def denseBlocks : List (List Bytes) :=
  (List.range 33).map (fun l => (buildLevel combine empty_root leaves l).map to_bytes)

/-- The flat node vector of the dense build. -/
def denseNodes : List Bytes := (denseBlocks empty_root combine to_bytes leaves).flatten

theorem denseBlocks_length : (denseBlocks empty_root combine to_bytes leaves).length = 33 := by
  simp [denseBlocks]

theorem denseBlocks_getD (k : Nat) (hk : k < 33) :
    (denseBlocks empty_root combine to_bytes leaves).getD k []
      = (buildLevel combine empty_root leaves k).map to_bytes := by
  unfold denseBlocks
  rw [List.getD_eq_getElem _ _ (by simpa using hk)]
  simp

theorem denseOffset :
    ∀ (k : Nat), k ≤ 33 →
      (((denseBlocks empty_root combine to_bytes leaves).take k).map List.length).sum
        = offsetAt leaves.length k
  | 0, _ => by simp [offsetAt]
  | k + 1, hk => by
    have hk' : k < 33 := by omega
    rw [take_succ_len_sum _ k
      (by rw [denseBlocks_length]; omega)]
    rw [denseOffset k (by omega)]
    rw [denseBlocks_getD empty_root combine to_bytes leaves k hk']
    simp only [offsetAt, List.length_map, buildLevel_length]

theorem denseNodes_length :
    (denseNodes empty_root combine to_bytes leaves).length = totalNodes leaves.length := by
  unfold denseNodes totalNodes
  rw [List.length_flatten]
  have h := denseOffset empty_root combine to_bytes leaves 33 (Nat.le_refl 33)
  rw [← h]
  have htake : (denseBlocks empty_root combine to_bytes leaves).take 33
      = denseBlocks empty_root combine to_bytes leaves := by
    rw [← denseBlocks_length empty_root combine to_bytes leaves]
    exact List.take_length _
  rw [htake]

theorem denseNodes_getElem (l s : Nat) (hl : l < 33) (hs : s < widthAt leaves.length l) :
    (denseNodes empty_root combine to_bytes leaves)[offsetAt leaves.length l + s]?
      = ((buildLevel combine empty_root leaves l).map to_bytes)[s]? := by
  unfold denseNodes
  have hblock := denseBlocks_getD empty_root combine to_bytes leaves l hl
  have hlen : s < ((denseBlocks empty_root combine to_bytes leaves).getD l []).length := by
    rw [hblock, List.length_map, buildLevel_length]
    exact hs
  have hidx := flatten_getElem_block (denseBlocks empty_root combine to_bytes leaves) l s hlen
  rw [denseOffset empty_root combine to_bytes leaves l (by omega)] at hidx
  rw [hidx, hblock]

theorem offsetAt_mono (n : Nat) : ∀ (l₁ l₂ : Nat), l₁ ≤ l₂ → offsetAt n l₁ ≤ offsetAt n l₂
  | l₁, 0, h => by
    have : l₁ = 0 := by omega
    subst this
    exact Nat.le_refl _
  | l₁, l₂ + 1, h => by
    rcases Nat.eq_or_lt_of_le h with heq | hlt
    · subst heq
      exact Nat.le_refl _
    · have := offsetAt_mono n l₁ l₂ (by omega)
      simp only [offsetAt]
      omega

/-- Bound for a node index inside level `l`. -/
theorem node_index_lt (l s : Nat) (hl : l < 33) (hs : s < widthAt leaves.length l) :
    offsetAt leaves.length l + s < (denseNodes empty_root combine to_bytes leaves).length := by
  rw [denseNodes_length]
  unfold totalNodes
  have h1 : offsetAt leaves.length l + s < offsetAt leaves.length (l + 1) := by
    simp only [offsetAt]
    omega
  have h2 : offsetAt leaves.length (l + 1) ≤ offsetAt leaves.length 33 :=
    offsetAt_mono _ _ _ (by omega)
  omega

end DenseBuild

end Zair

namespace Zair

section DenseCorrect

variable {α : Type} (empty_root : Nat → α) (combine : Nat → α → α → α)
variable (to_bytes : α → Bytes) (leaves : List α)

theorem denseNodes_getLast (h1 : 1 ≤ leaves.length) (h2 : leaves.length < 2 ^ 32)
    (top : α) (htop : (buildLevel combine empty_root leaves 32)[0]? = some top) :
    (denseNodes empty_root combine to_bytes leaves).getLast? = some (to_bytes top) := by
  rw [List.getLast?_eq_getElem?]
  rw [denseNodes_length]
  have hw32 : widthAt leaves.length 32 = 1 := widthAt_32 _ h1 h2
  have hstep : offsetAt leaves.length 33
      = offsetAt leaves.length 32 + widthAt leaves.length 32 := rfl
  have hlen : totalNodes leaves.length - 1 = offsetAt leaves.length 32 + 0 := by
    unfold totalNodes
    omega
  rw [hlen, denseNodes_getElem empty_root combine to_bytes leaves 32 0 (by omega) (by omega)]
  rw [List.getElem?_map, htop]
  rfl

theorem from_leaves_eq (h1 : 1 ≤ leaves.length) (h2 : leaves.length < 2 ^ 32)
    (top : α) (htop : (buildLevel combine empty_root leaves 32)[0]? = some top) :
    DenseGapTree.from_leaves empty_root combine to_bytes leaves
      = .ok ⟨leaves.length, denseNodes empty_root combine to_bytes leaves, to_bytes top⟩ := by
  have hlast := denseNodes_getLast empty_root combine to_bytes leaves h1 h2 top htop
  have hval : validate_leaf_count leaves.length = .ok () := by
    unfold validate_leaf_count
    rw [if_neg (by omega), if_neg (by omega)]
  have hfrom : DenseGapTree.from_nodes leaves.length (totalNodes leaves.length)
      (denseNodes empty_root combine to_bytes leaves)
      = .ok ⟨leaves.length, denseNodes empty_root combine to_bytes leaves, to_bytes top⟩ := by
    unfold DenseGapTree.from_nodes
    rw [if_neg (fun hc => hc (denseNodes_length empty_root combine to_bytes leaves))]
    rw [hlast]
  unfold DenseGapTree.from_leaves
  rw [hval]
  exact hfrom

theorem node_at_eq (t : DenseGapTree)
    (ht_count : t.leaf_count = leaves.length)
    (ht_nodes : t.nodes = denseNodes empty_root combine to_bytes leaves)
    (l s : Nat) (hl : l < 33) (hs : s < widthAt leaves.length l) (y : α)
    (hy : (buildLevel combine empty_root leaves l)[s]? = some y) :
    t.node_at l s = to_bytes y := by
  unfold DenseGapTree.node_at
  rw [ht_count, ht_nodes]
  rw [List.getD_eq_getD_get?, List.get?_eq_getElem?]
  rw [denseNodes_getElem empty_root combine to_bytes leaves l s hl hs]
  rw [List.getElem?_map, hy]
  rfl

theorem witness_recompute
    (combineB : Nat → Bytes → Bytes → Bytes)
    (hcomm : ∀ lv a b, combineB lv (to_bytes a) (to_bytes b) = to_bytes (combine lv a b))
    (t : DenseGapTree)
    (ht_count : t.leaf_count = leaves.length)
    (ht_nodes : t.nodes = denseNodes empty_root combine to_bytes leaves)
    (h1 : 1 ≤ leaves.length) (h2 : leaves.length < 2 ^ 32)
    (top : α) (htop : (buildLevel combine empty_root leaves 32)[0]? = some top) :
    ∀ (r l i : Nat) (x : α), l + r = 32 →
      (buildLevel combine empty_root leaves l)[i]? = some x →
      recomputeRoot combineB l i (to_bytes x)
        (witnessLevels t (fun lv => to_bytes (empty_root lv)) i l r) = to_bytes top := by
  intro r
  induction r with
  | zero =>
    intro l i x hlr hx
    have hl : l = 32 := by omega
    subst hl
    have hlen : i < (buildLevel combine empty_root leaves 32).length := by
      by_contra hc
      push_neg at hc
      rw [List.getElem?_eq_none hc] at hx
      exact Option.noConfusion hx
    rw [buildLevel_length, widthAt_32 _ h1 h2] at hlen
    have hi : i = 0 := by omega
    subst hi
    rw [htop] at hx
    have hx2 : top = x := Option.some.inj hx
    subst hx2
    rfl
  | succ r ih =>
    intro l i x hlr hx
    have hl33 : l < 33 := by omega
    have hiW : i < widthAt leaves.length l := by
      rw [← buildLevel_length combine empty_root leaves l]
      by_contra hc
      push_neg at hc
      rw [List.getElem?_eq_none hc] at hx
      exact Option.noConfusion hx
    have hnext : (buildLevel combine empty_root leaves (l + 1))[i / 2]?
        = ((buildLevel combine empty_root leaves l)[2 * (i / 2)]?).map
            (fun a => combine l a
              ((buildLevel combine empty_root leaves l).getD (2 * (i / 2) + 1) (empty_root l))) :=
      combinePairs_getElem? _ _ _ (i / 2)
    rcases Nat.mod_two_eq_zero_or_one i with hpar | hpar
    · -- even index: sibling on the right
      have h2j : 2 * (i / 2) = i := by omega
      rw [h2j, hx] at hnext
      have hsib : (if i + 1 < widthAt leaves.length l then t.node_at l (i + 1)
            else to_bytes (empty_root l))
          = to_bytes ((buildLevel combine empty_root leaves l).getD (i + 1) (empty_root l)) := by
        by_cases hin : i + 1 < widthAt leaves.length l
        · rw [if_pos hin]
          have hlenBL : i + 1 < (buildLevel combine empty_root leaves l).length := by
            rw [buildLevel_length]
            exact hin
          have hy : (buildLevel combine empty_root leaves l)[i + 1]?
              = some ((buildLevel combine empty_root leaves l).getD (i + 1) (empty_root l)) := by
            rw [List.getElem?_eq_getElem hlenBL, List.getD_eq_getElem _ _ hlenBL]
          exact node_at_eq empty_root combine to_bytes leaves t ht_count ht_nodes
            l (i + 1) hl33 hin _ hy
        · rw [if_neg hin]
          have hge : (buildLevel combine empty_root leaves l).length ≤ i + 1 := by
            rw [buildLevel_length]
            omega
          rw [List.getD_eq_default _ _ hge]
      simp only [witnessLevels, ht_count]
      rw [if_pos hpar, hsib]
      simp only [recomputeRoot]
      rw [if_pos hpar, hcomm]
      exact ih (l + 1) (i / 2) _ (by omega) hnext
    · -- odd index: sibling on the left
      have hi1 : 1 ≤ i := by omega
      have h2j : 2 * (i / 2) = i - 1 := by omega
      rw [h2j] at hnext
      have h2j1 : i - 1 + 1 = i := by omega
      rw [h2j1] at hnext
      have hdi : (buildLevel combine empty_root leaves l).getD i (empty_root l) = x := by
        rw [List.getD_eq_getD_get?, List.get?_eq_getElem?, hx]
        rfl
      rw [hdi] at hnext
      have hlenm : i - 1 < (buildLevel combine empty_root leaves l).length := by
        rw [buildLevel_length]
        omega
      have hym : (buildLevel combine empty_root leaves l)[i - 1]?
          = some ((buildLevel combine empty_root leaves l).getD (i - 1) (empty_root l)) := by
        rw [List.getElem?_eq_getElem hlenm, List.getD_eq_getElem _ _ hlenm]
      rw [hym] at hnext
      have hnpar : ¬ i % 2 = 0 := by omega
      simp only [witnessLevels, ht_count]
      rw [if_neg hnpar]
      rw [if_pos (by omega : i - 1 < widthAt leaves.length l)]
      rw [node_at_eq empty_root combine to_bytes leaves t ht_count ht_nodes
        l (i - 1) hl33 (by omega) _ hym]
      simp only [recomputeRoot]
      rw [if_neg hnpar, hcomm]
      exact ih (l + 1) (i / 2) _ (by omega) hnext

end DenseCorrect

end Zair

namespace Zair

/-! ## Sapling user mapping
(`crates/zair-nonmembership/src/pool/sapling.rs`) -/

/-- `TreePosition` from `zair-nonmembership/src/core.rs`: a user nullifier mapped
to its gap index with the gap's bounds. -/
structure TreePosition where
  nullifier : Bytes
  leaf_position : Nat
  left_bound : Bytes
  right_bound : Bytes
deriving DecidableEq, Repr

/-- Strict byte-lexicographic order on nullifiers. -/
def lexLt (a b : Bytes) : Prop := lexCmp a b = .lt

/-- The number of elements of `C` comparing strictly below `u` under `cmp`. -/
def countLt (cmp : Bytes → Bytes → Ordering) (C : List Bytes) (u : Bytes) : Nat :=
  (C.filter (fun c => decide (cmp c u = Ordering.lt))).length

/-- Modelled from the spec: `SanitiseNullifiers::binary_search` (std binary search
on the sorted set) — "returns either the found index or the gap index at which
the needle would insert" (§4.1 of the spec; the `zair-core` module is not among
the provided sources). On a sorted duplicate-free slice both indices equal the
number of elements strictly below the needle. -/
def binary_search (C : List Bytes) (u : Bytes) : Sum Nat Nat :=
  if u ∈ C then .inl (countLt lexCmp C u) else .inr (countLt lexCmp C u)

/-- `sapling_gap_bounds` from `pool/sapling.rs` (the final arm panics in the
source and is unreachable for in-range gap indices). -/
def sapling_gap_bounds (nullifiers : List Bytes) (gap_idx : Nat) : Bytes × Bytes :=
  if nullifiers = [] then (minNullifier, maxNullifier)
  else if gap_idx = 0 then (minNullifier, nullifiers.getD 0 [])
  else if gap_idx = nullifiers.length then (nullifiers.getD (gap_idx - 1) [], maxNullifier)
  else if gap_idx < nullifiers.length then
    (nullifiers.getD (gap_idx - 1) [], nullifiers.getD gap_idx [])
  else ([], [])

/-- `map_sapling_user_positions` from `pool/sapling.rs`: every user nullifier
found in the chain set is dropped; every other one is emitted once with its
insertion gap index and the gap's bounds. -/
def map_sapling_user_positions (chain_nullifiers user_nullifiers : List Bytes) :
    List TreePosition :=
  user_nullifiers.filterMap (fun user_nf =>
    match binary_search chain_nullifiers user_nf with
    | .inl _ => none
    | .inr gap_idx =>
      let bounds := sapling_gap_bounds chain_nullifiers gap_idx
      some ⟨user_nf, gap_idx, bounds.1, bounds.2⟩)

/-! ### Order facts about sorted chains -/

theorem chain_lt_getD : ∀ (C : List Bytes) (c : Bytes), List.Chain' lexLt (c :: C) →
    ∀ k, k < C.length → lexCmp c (C.getD k []) = .lt
  | [], _, _, k, hk => by simp at hk
  | d :: C, c, h, 0, _ => by
    have h1 := (List.chain'_cons.mp h).1
    simpa [List.getD_cons_zero] using h1
  | d :: C, c, h, k + 1, hk => by
    obtain ⟨h1, h2⟩ := List.chain'_cons.mp h
    rw [List.getD_cons_succ]
    exact lexCmp_trans_lt _ _ _ h1 (chain_lt_getD C d h2 k (by simpa using hk))

theorem chain_lt_mem : ∀ (C : List Bytes) (c : Bytes), List.Chain' lexLt (c :: C) →
    ∀ v ∈ C, lexCmp c v = .lt
  | [], _, _, v, hv => by simp at hv
  | d :: C, c, h, v, hv => by
    obtain ⟨h1, h2⟩ := List.chain'_cons.mp h
    rcases List.mem_cons.mp hv with rfl | hv'
    · exact h1
    · exact lexCmp_trans_lt _ _ _ h1 (chain_lt_mem C d h2 v hv')

theorem chain_lexLt_nodup : ∀ (C : List Bytes), List.Chain' lexLt C → C.Nodup
  | [], _ => List.nodup_nil
  | c :: C, h => by
    have h2 : List.Chain' lexLt C := h.tail
    refine List.nodup_cons.mpr ⟨?_, chain_lexLt_nodup C h2⟩
    intro hmem
    have := chain_lt_mem C c h c hmem
    rw [lexCmp_refl] at this
    exact Ordering.noConfusion this

theorem countLt_cons (cmp : Bytes → Bytes → Ordering) (c u : Bytes) (C : List Bytes) :
    countLt cmp (c :: C) u
      = (if cmp c u = Ordering.lt then 1 else 0) + countLt cmp C u := by
  unfold countLt
  rw [List.filter_cons]
  by_cases h : cmp c u = Ordering.lt
  · simp [h]
    omega
  · simp [h]

theorem countLt_le (cmp : Bytes → Bytes → Ordering) (C : List Bytes) (u : Bytes) :
    countLt cmp C u ≤ C.length :=
  List.length_filter_le _ _

/-- On a strictly sorted chain, the elements below `u` are exactly the first
`countLt` positions. -/
theorem sorted_countLt_spec :
    ∀ (C : List Bytes), List.Chain' lexLt C → ∀ (u : Bytes) (k : Nat), k < C.length →
      (k < countLt lexCmp C u ↔ lexCmp (C.getD k []) u = .lt)
  | [], _, u, k, hk => by simp at hk
  | c :: C, hs, u, 0, _ => by
    rw [countLt_cons, List.getD_cons_zero]
    constructor
    · intro hpos
      by_cases hcu : lexCmp c u = Ordering.lt
      · exact hcu
      · rw [if_neg hcu] at hpos
        simp only [Nat.zero_add] at hpos
        have hCne : 0 < C.length := by
          have := countLt_le lexCmp C u
          omega
        have h0 := (sorted_countLt_spec C hs.tail u 0 hCne).mp hpos
        have hlt := chain_lt_getD C c hs 0 hCne
        exact lexCmp_trans_lt _ _ _ hlt h0
    · intro hcu
      rw [if_pos hcu]
      omega
  | c :: C, hs, u, k + 1, hk => by
    rw [countLt_cons, List.getD_cons_succ]
    have hkC : k < C.length := by simpa using hk
    by_cases hcu : lexCmp c u = Ordering.lt
    · rw [if_pos hcu]
      have hiff := sorted_countLt_spec C hs.tail u k hkC
      constructor
      · intro h
        exact hiff.mp (by omega)
      · intro h
        have := hiff.mpr h
        omega
    · rw [if_neg hcu]
      constructor
      · intro hlt
        exact (sorted_countLt_spec C hs.tail u k hkC).mp (by omega)
      · intro hCk
        have hlt := chain_lt_getD C c hs k hkC
        exact absurd (lexCmp_trans_lt _ _ _ hlt hCk) hcu

/-- On a strictly sorted chain with `u` absent, the element at the insertion
index is strictly above `u`. -/
theorem sorted_countLt_gt (C : List Bytes) (hs : List.Chain' lexLt C) (u : Bytes)
    (hmem : u ∉ C) (hlt : countLt lexCmp C u < C.length) :
    lexCmp u (C.getD (countLt lexCmp C u) []) = .lt := by
  have hnotlt : ¬ lexCmp (C.getD (countLt lexCmp C u) []) u = .lt := by
    intro hc
    have := (sorted_countLt_spec C hs u (countLt lexCmp C u) hlt).mpr hc
    omega
  cases hord : lexCmp (C.getD (countLt lexCmp C u) []) u with
  | lt => exact absurd hord hnotlt
  | eq =>
    exfalso
    have heq := (lexCmp_eq_eq _ _).mp hord
    apply hmem
    rw [← heq]
    rw [List.getD_eq_getElem _ _ hlt]
    exact List.getElem_mem _
  | gt => exact lexCmp_eq_gt_iff.mp hord

end Zair

namespace Zair

theorem filterMap_filter_by_key :
    ∀ (U : List Bytes) (f : Bytes → Option TreePosition) (u : Bytes),
      (∀ v tp, f v = some tp → tp.nullifier = v) → U.Nodup →
      (U.filterMap f).filter (fun tp => decide (tp.nullifier = u))
        = if u ∈ U then (f u).toList else []
  | [], f, u, _, _ => by simp
  | v :: U, f, u, hkey, hnd => by
    obtain ⟨hvU, hndU⟩ := List.nodup_cons.mp hnd
    rw [List.filterMap_cons]
    cases hf : f v with
    | none =>
      rw [filterMap_filter_by_key U f u hkey hndU]
      by_cases huv : u = v
      · subst huv
        rw [if_neg hvU, if_pos (List.mem_cons_self u U), hf]
        rfl
      · by_cases huU : u ∈ U
        · rw [if_pos huU, if_pos (List.mem_cons.mpr (Or.inr huU))]
        · rw [if_neg huU, if_neg (by simp [List.mem_cons, huv, huU])]
    | some tp =>
      have htp : tp.nullifier = v := hkey v tp hf
      rw [List.filter_cons]
      by_cases huv : u = v
      · subst huv
        rw [if_pos (by simp [htp])]
        rw [filterMap_filter_by_key U f u hkey hndU]
        rw [if_neg hvU, if_pos (List.mem_cons_self u U), hf]
        rfl
      · rw [if_neg (by simp [htp]; exact fun hc => huv hc.symm)]
        rw [filterMap_filter_by_key U f u hkey hndU]
        by_cases huU : u ∈ U
        · rw [if_pos huU, if_pos (List.mem_cons.mpr (Or.inr huU))]
        · rw [if_neg huU,
            if_neg (by simp [List.mem_cons, huU]; intro hc; exact huv hc)]

theorem sapling_gap_bounds_spec (C : List Bytes) (hC : List.Chain' lexLt C) (u : Bytes)
    (hmem : u ∉ C) (hmin : lexLt minNullifier u) (hmax : lexLt u maxNullifier) :
    lexLt (sapling_gap_bounds C (countLt lexCmp C u)).1 u ∧
    lexLt u (sapling_gap_bounds C (countLt lexCmp C u)).2 := by
  unfold sapling_gap_bounds
  by_cases hCe : C = []
  · subst hCe
    rw [if_pos rfl]
    exact ⟨hmin, hmax⟩
  · rw [if_neg hCe]
    have hlen : 0 < C.length := List.length_pos.mpr hCe
    have hgle : countLt lexCmp C u ≤ C.length := countLt_le lexCmp C u
    by_cases hg0 : countLt lexCmp C u = 0
    · rw [if_pos hg0]
      refine ⟨hmin, ?_⟩
      have hgt := sorted_countLt_gt C hC u hmem (by omega)
      rw [hg0] at hgt
      exact hgt
    · rw [if_neg hg0]
      have hleft : lexLt (C.getD (countLt lexCmp C u - 1) []) u :=
        (sorted_countLt_spec C hC u (countLt lexCmp C u - 1) (by omega)).mp (by omega)
      by_cases hgl : countLt lexCmp C u = C.length
      · rw [if_pos hgl]
        exact ⟨hleft, hmax⟩
      · rw [if_neg hgl, if_pos (by omega)]
        exact ⟨hleft, sorted_countLt_gt C hC u hmem (by omega)⟩

/-- The Sapling mapping, per user nullifier: members of the chain set are
dropped; non-members strictly between the sentinels are emitted exactly once,
at the insertion gap index, with strictly bracketing bounds. -/
theorem map_sapling_spec (C U : List Bytes)
    (hC : List.Chain' lexLt C) (hU : List.Chain' lexLt U)
    (u : Bytes) (hu : u ∈ U) :
    (u ∈ C →
      (map_sapling_user_positions C U).filter (fun tp => decide (tp.nullifier = u)) = [])
    ∧ (u ∉ C → lexLt minNullifier u → lexLt u maxNullifier →
      (map_sapling_user_positions C U).filter (fun tp => decide (tp.nullifier = u))
        = [⟨u, countLt lexCmp C u, (sapling_gap_bounds C (countLt lexCmp C u)).1,
            (sapling_gap_bounds C (countLt lexCmp C u)).2⟩]
      ∧ lexLt (sapling_gap_bounds C (countLt lexCmp C u)).1 u
      ∧ lexLt u (sapling_gap_bounds C (countLt lexCmp C u)).2) := by
  have hkey : ∀ v tp,
      (match binary_search C v with
        | .inl _ => none
        | .inr gap_idx =>
          let bounds := sapling_gap_bounds C gap_idx
          some (⟨v, gap_idx, bounds.1, bounds.2⟩ : TreePosition)) = some tp →
      tp.nullifier = v := by
    intro v tp h
    cases hb : binary_search C v with
    | inl found => rw [hb] at h; exact Option.noConfusion h
    | inr gap_idx =>
      rw [hb] at h
      have := Option.some.inj h
      rw [← this]
  have hfilter := filterMap_filter_by_key U _ u hkey (chain_lexLt_nodup U hU)
  rw [if_pos hu] at hfilter
  constructor
  · intro hmem
    unfold map_sapling_user_positions
    rw [hfilter]
    unfold binary_search
    rw [if_pos hmem]
    rfl
  · intro hmem hmin hmax
    have hbounds := sapling_gap_bounds_spec C hC u hmem hmin hmax
    refine ⟨?_, hbounds.1, hbounds.2⟩
    unfold map_sapling_user_positions
    rw [hfilter]
    unfold binary_search
    rw [if_neg hmem]
    rfl

end Zair

namespace Zair

/-! ## Orchard canonicalisation and the fused sparse build
(`crates/zair-nonmembership/src/sparse/orchard.rs`,
`crates/zair-nonmembership/src/pool/orchard.rs`) -/

/-- The pallas base field modulus `p`, the canonical-encoding bound of Orchard
nullifiers. -/
def pallasP : Nat :=
  0x40000000000000000000000000000000224698fc094cf91b992d30ed00000001

/-- `cmp_pallas_repr_le`: compare two little-endian encodings from the most
significant byte (index 31) downward, i.e. lexicographic comparison of the
reversed byte strings. -/
def cmp_pallas_repr_le (lhs rhs : Bytes) : Ordering :=
  lexCmp lhs.reverse rhs.reverse

/-- `orchard_cmp`: the Orchard field order on nullifier encodings. -/
def orchard_cmp (lhs rhs : Bytes) : Ordering := cmp_pallas_repr_le lhs rhs

/-- Modelled from the spec: `MerkleHashOrchard::from_bytes` of the external
`orchard` crate accepts exactly the canonical little-endian encodings of pallas
base field elements ("if the decoder rejects (value ≥ field modulus), the set
is invalid", §4.3); a decoded node is modelled by its field value. -/
def orchard_node_from_bytes (bytes : Bytes) : Option Nat :=
  if leVal bytes < pallasP then some (leVal bytes) else none

/-- Modelled from the spec: `pallas::Base` subtraction, used by
`orchard_max_nullifier` as `from(0) - from(1)`. -/
def pallasSub (a b : Nat) : Nat := (a % pallasP + pallasP - b % pallasP) % pallasP

/-- `orchard_max_nullifier`: the canonical little-endian encoding of
`0 - 1 = p - 1`. -/
def orchard_max_nullifier : Bytes := leBytes 32 (pallasSub 0 1)

/-- `CanonicalOrchardNullifier` from `sparse/orchard.rs`. -/
structure CanonicalOrchardNullifier where
  bytes : Bytes
  node : Nat
deriving DecidableEq, Repr

/-- `Gap` from `sparse/orchard.rs`. -/
structure OrchardGap where
  left_nf : Bytes
  left_node : Nat
  right_nf : Bytes
  right_node : Nat
deriving DecidableEq, Repr

/-- The indexed decoding loop shared by the Orchard canonicalisers: fails at the
first non-canonical nullifier with its index in the original set. -/
def canonOrchardGo (set : String) :
    Nat → List Bytes → Except MerklePathError (List CanonicalOrchardNullifier)
  | _, [] => .ok []
  | index, b :: rest =>
    match orchard_node_from_bytes b with
    | none => .error (.NonCanonicalOrchardNullifier set index)
    | some node =>
      match canonOrchardGo set (index + 1) rest with
      | .error e => .error e
      | .ok tail => .ok (⟨b, node⟩ :: tail)

/-- `canonicalize_orchard_chain_nullifiers`: decode every nullifier, then sort
by `orchard_cmp` on the bytes and deduplicate adjacent byte-equal entries. -/
def canonicalize_orchard_chain_nullifiers (set : String) (nullifiers : List Bytes) :
    Except MerklePathError (List CanonicalOrchardNullifier) :=
  (canonOrchardGo set 0 nullifiers).map (fun canonical =>
    dedupAdj (fun lhs rhs => decide (lhs.bytes = rhs.bytes))
      (sortByCmp (fun lhs rhs => orchard_cmp lhs.bytes rhs.bytes) canonical))

/-- `canonicalize_orchard_user_nullifiers`: decode every nullifier (keeping the
bytes), sort by `orchard_cmp` and deduplicate. -/
def canonicalize_orchard_user_nullifiers (set : String) (nullifiers : List Bytes) :
    Except MerklePathError (List Bytes) :=
  (canonOrchardGo set 0 nullifiers).map (fun canonical =>
    dedupAdj (fun a b => decide (a = b))
      (sortByCmp orchard_cmp (canonical.map (fun c => c.bytes))))

/-- `orchard_gap_bounds` from `sparse/orchard.rs` (the out-of-range arm panics
in the source and is unreachable, since the builder iterates `gap_idx ≤ len`). -/
def orchard_gap_bounds (nullifiers : List CanonicalOrchardNullifier) (gap_idx : Nat)
    (min_node : Nat) (max_nf : Bytes) (max_node : Nat) : OrchardGap :=
  if nullifiers = [] then ⟨minNullifier, min_node, max_nf, max_node⟩
  else if gap_idx = 0 then
    ⟨minNullifier, min_node,
      (nullifiers.getD 0 ⟨[], 0⟩).bytes, (nullifiers.getD 0 ⟨[], 0⟩).node⟩
  else if gap_idx = nullifiers.length then
    ⟨(nullifiers.getD (gap_idx - 1) ⟨[], 0⟩).bytes,
      (nullifiers.getD (gap_idx - 1) ⟨[], 0⟩).node, max_nf, max_node⟩
  else if gap_idx < nullifiers.length then
    ⟨(nullifiers.getD (gap_idx - 1) ⟨[], 0⟩).bytes,
      (nullifiers.getD (gap_idx - 1) ⟨[], 0⟩).node,
      (nullifiers.getD gap_idx ⟨[], 0⟩).bytes, (nullifiers.getD gap_idx ⟨[], 0⟩).node⟩
  else ⟨[], 0, [], 0⟩

/-- The inner user-scan of the fused build: skip users not above `left`, stop at
the first user not below `right`, collect the users strictly inside the gap.
Returns (collected users in order, remaining users). -/
def scanGap (left right : Bytes) : List Bytes → List Bytes × List Bytes
  | [] => ([], [])
  | u :: rest =>
    if ¬ orchard_cmp u left = .gt then scanGap left right rest
    else if ¬ orchard_cmp u right = .lt then ([], u :: rest)
    else
      let scanned := scanGap left right rest
      (u :: scanned.1, scanned.2)

/-- The per-gap loop of
`OrchardNonMembershipTree::from_chain_and_user_nullifiers_with_progress`: for
each gap index in order, append the gap leaf — modelled as the pair of child
field values, the Sinsemilla leaf hash of the external `orchard` crate being
treated as a free constructor — collect and mark the user nullifiers strictly
inside the gap, and emit their `TreePosition`s.
Returns (leaves, marked gap indices, mapping). -/
def orchardFusedGo (chain : List CanonicalOrchardNullifier) (min_node : Nat)
    (max_nf : Bytes) (max_node : Nat) :
    List Nat → List Bytes → List (Nat × Nat) × List Nat × List TreePosition
  | [], _ => ([], [], [])
  | gap_idx :: rest, users =>
    let gap := orchard_gap_bounds chain gap_idx min_node max_nf max_node
    let scanned := scanGap gap.left_nf gap.right_nf users
    let tail := orchardFusedGo chain min_node max_nf max_node rest scanned.2
    ((gap.left_node, gap.right_node) :: tail.1,
      (if scanned.1 = [] then [] else [gap_idx]) ++ tail.2.1,
      scanned.1.map (fun u => ⟨u, gap_idx, gap.left_nf, gap.right_nf⟩) ++ tail.2.2)

/-- The sparse Orchard tree, modelled through what the repository observes of
the external `BridgeTree`: the appended gap leaves (as pairs of child field
values), the marked positions and the leaf count. -/
structure OrchardNonMembershipTree where
  leaves : List (Nat × Nat)
  marked : List Nat
  leaf_count : Nat
deriving DecidableEq, Repr

/-- `OrchardNonMembershipTree::from_chain_and_user_nullifiers_with_progress`
(the progress callback has no observable effect and is omitted). -/
def from_chain_and_user_nullifiers (chain_nullifiers user_nullifiers : List Bytes) :
    Except MerklePathError (OrchardNonMembershipTree × List TreePosition) :=
  match canonicalize_orchard_chain_nullifiers "chain" chain_nullifiers with
  | .error e => .error e
  | .ok chain =>
    match canonicalize_orchard_user_nullifiers "user" user_nullifiers with
    | .error e => .error e
    | .ok user =>
      match orchard_node_from_bytes minNullifier with
      | none => .error (.Unexpected "invalid Orchard min nullifier encoding")
      | some min_node =>
        match orchard_node_from_bytes orchard_max_nullifier with
        | none => .error (.Unexpected "invalid Orchard max nullifier encoding")
        | some max_node =>
          let num_gaps := chain.length + 1
          let result := orchardFusedGo chain min_node orchard_max_nullifier max_node
            (List.range num_gaps) user
          .ok (⟨result.1, result.2.1, num_gaps⟩, result.2.2)

/-- `OrchardNonMembershipTree::from_nullifiers` (build with no marked
positions: the user set is empty). -/
def orchard_from_nullifiers (nullifiers : List Bytes) :
    Except MerklePathError OrchardNonMembershipTree :=
  match from_chain_and_user_nullifiers nullifiers [] with
  | .error e => .error e
  | .ok result => .ok result.1

end Zair

namespace Zair

/-- Well-formed nullifier bytes: exactly 32 bytes, each below 256 (the `[u8; 32]`
typing of the source). -/
def nfWF (u : Bytes) : Prop := u.length = 32 ∧ ∀ x ∈ u, x < 256

theorem orchard_cmp_refl (a : Bytes) : orchard_cmp a a = .eq := lexCmp_refl _

theorem orchard_cmp_eq_iff {a b : Bytes} : orchard_cmp a b = .eq ↔ a = b := by
  unfold orchard_cmp cmp_pallas_repr_le
  rw [lexCmp_eq_eq]
  exact List.reverse_inj

theorem orchard_cmp_gt_iff {a b : Bytes} :
    orchard_cmp a b = .gt ↔ orchard_cmp b a = .lt :=
  lexCmp_eq_gt_iff

/-- On well-formed nullifier bytes the Orchard comparison is the comparison of
the little-endian values — the field order on canonical encodings. -/
theorem orchard_cmp_eq_natCmp_leVal (a b : Bytes) (ha : nfWF a) (hb : nfWF b) :
    orchard_cmp a b = natCmp (leVal a) (leVal b) := by
  unfold orchard_cmp cmp_pallas_repr_le leVal
  apply lexCmp_eq_natCmp_beVal
  · rw [List.length_reverse, List.length_reverse, ha.1, hb.1]
  · intro x hx
    exact ha.2 x (List.mem_reverse.mp hx)
  · intro x hx
    exact hb.2 x (List.mem_reverse.mp hx)

theorem minNullifier_wf : nfWF minNullifier := by
  constructor
  · simp [minNullifier]
  · intro x hx
    have hx0 : x = 0 := by
      have hmem := hx
      simp [minNullifier, List.mem_replicate] at hmem
      exact hmem
    omega

theorem leVal_minNullifier : leVal minNullifier = 0 := by decide

theorem orchard_max_wf : nfWF orchard_max_nullifier :=
  ⟨leBytes_length _ _, leBytes_bounded _ _⟩

theorem pallasSub_zero_one : pallasSub 0 1 = pallasP - 1 := by
  unfold pallasSub pallasP
  norm_num

theorem leVal_orchard_max : leVal orchard_max_nullifier = pallasP - 1 := by
  unfold orchard_max_nullifier
  rw [leVal_leBytes, pallasSub_zero_one]
  have : pallasP - 1 < 256 ^ 32 := by
    unfold pallasP
    norm_num
  exact Nat.mod_eq_of_lt this

theorem pallasP_pos : 0 < pallasP := by
  unfold pallasP
  norm_num

/-! ### Sorting an already-sorted list is the identity -/

theorem sortByCmp_of_chain {β : Type} (cmp : β → β → Ordering) :
    ∀ (l : List β), List.Chain' (fun a b => cmp a b = .lt) l → sortByCmp cmp l = l
  | [], _ => rfl
  | a :: l, h => by
    have ih := sortByCmp_of_chain cmp l h.tail
    show insertSorted cmp a (sortByCmp cmp l) = a :: l
    rw [ih]
    cases l with
    | nil => rfl
    | cons b bs =>
      have hab : cmp a b = .lt := (List.chain'_cons.mp h).1
      unfold insertSorted
      rw [if_neg (by rw [hab]; intro hc; exact Ordering.noConfusion hc)]

theorem dedupAdjGo_of_chain {β : Type} (eqb : β → β → Bool) (R : β → β → Prop)
    (hne : ∀ a b, R a b → eqb b a = false) :
    ∀ (prev : β) (l : List β), List.Chain' R (prev :: l) → dedupAdjGo eqb prev l = l
  | _, [], _ => rfl
  | prev, b :: bs, h => by
    obtain ⟨h1, h2⟩ := List.chain'_cons.mp h
    unfold dedupAdjGo
    rw [hne prev b h1]
    simp only [Bool.false_eq_true, if_false]
    rw [dedupAdjGo_of_chain eqb R hne b bs h2]

theorem dedupAdj_of_chain {β : Type} (eqb : β → β → Bool) (R : β → β → Prop)
    (hne : ∀ a b, R a b → eqb b a = false) :
    ∀ (l : List β), List.Chain' R l → dedupAdj eqb l = l
  | [], _ => rfl
  | a :: l, h => by
    show a :: dedupAdjGo eqb a l = a :: l
    rw [dedupAdjGo_of_chain eqb R hne a l h]

/-! ### Canonicalisation on canonical, sorted input -/

theorem canonOrchardGo_ok (set : String) :
    ∀ (l : List Bytes) (i : Nat), (∀ b ∈ l, leVal b < pallasP) →
      canonOrchardGo set i l = .ok (l.map (fun b => ⟨b, leVal b⟩))
  | [], _, _ => rfl
  | b :: rest, i, h => by
    unfold canonOrchardGo orchard_node_from_bytes
    rw [if_pos (h b (by simp))]
    rw [canonOrchardGo_ok set rest (i + 1) (fun v hv => h v (by simp [hv]))]
    rfl

theorem canonOrchardGo_error (set : String) :
    ∀ (l : List Bytes) (i : Nat), (∃ b ∈ l, ¬ leVal b < pallasP) →
      canonOrchardGo set i l
        = .error (.NonCanonicalOrchardNullifier set
            (i + l.findIdx (fun b => !decide (leVal b < pallasP))))
  | [], _, h => by simp at h
  | b :: rest, i, h => by
    unfold canonOrchardGo orchard_node_from_bytes
    by_cases hb : leVal b < pallasP
    · rw [if_pos hb]
      have hrest : ∃ v ∈ rest, ¬ leVal v < pallasP := by
        obtain ⟨v, hv, hnv⟩ := h
        rcases List.mem_cons.mp hv with rfl | hv2
        · exact absurd hb hnv
        · exact ⟨v, hv2, hnv⟩
      rw [canonOrchardGo_error set rest (i + 1) hrest]
      rw [List.findIdx_cons]
      have hfalse : (!decide (leVal b < pallasP)) = false := by simp [hb]
      rw [hfalse, Bool.cond_false]
      have harith : i + (rest.findIdx (fun v => !decide (leVal v < pallasP)) + 1)
          = i + 1 + rest.findIdx (fun v => !decide (leVal v < pallasP)) := by omega
      rw [harith]
    · rw [if_neg hb]
      rw [List.findIdx_cons]
      have htrue : (!decide (leVal b < pallasP)) = true := by simp [hb]
      rw [htrue, Bool.cond_true]
      rfl

theorem canonicalize_chain_sorted (set : String) (C : List Bytes)
    (hcan : ∀ b ∈ C, leVal b < pallasP)
    (hs : List.Chain' (fun a b => orchard_cmp a b = .lt) C) :
    canonicalize_orchard_chain_nullifiers set C
      = .ok (C.map (fun b => ⟨b, leVal b⟩)) := by
  unfold canonicalize_orchard_chain_nullifiers
  rw [canonOrchardGo_ok set C 0 hcan]
  simp only [Except.map]
  have hchain : List.Chain'
      (fun a b : CanonicalOrchardNullifier => orchard_cmp a.bytes b.bytes = .lt)
      (C.map (fun b => ⟨b, leVal b⟩)) := by
    rw [List.chain'_map]
    exact hs
  have hne : ∀ a b : CanonicalOrchardNullifier,
      orchard_cmp a.bytes b.bytes = .lt → decide (b.bytes = a.bytes) = false := by
    intro a b hab
    apply decide_eq_false
    intro heq
    rw [heq, orchard_cmp_refl] at hab
    exact Ordering.noConfusion hab
  rw [sortByCmp_of_chain _ _ hchain]
  rw [dedupAdj_of_chain _ _ hne _ hchain]

theorem canonicalize_user_sorted (set : String) (U : List Bytes)
    (hcan : ∀ b ∈ U, leVal b < pallasP)
    (hs : List.Chain' (fun a b => orchard_cmp a b = .lt) U) :
    canonicalize_orchard_user_nullifiers set U = .ok U := by
  unfold canonicalize_orchard_user_nullifiers
  rw [canonOrchardGo_ok set U 0 hcan]
  simp only [Except.map]
  rw [List.map_map]
  have hmap : U.map ((fun (c : CanonicalOrchardNullifier) => c.bytes)
      ∘ (fun b => (⟨b, leVal b⟩ : CanonicalOrchardNullifier))) = U := by
    have : U.map (fun b => b) = U := by simp
    exact this
  rw [hmap, sortByCmp_of_chain _ _ hs]
  have hne : ∀ a b : Bytes, orchard_cmp a b = .lt → decide (b = a) = false := by
    intro a b hab
    apply decide_eq_false
    intro heq
    rw [heq, orchard_cmp_refl] at hab
    exact Ordering.noConfusion hab
  rw [dedupAdj_of_chain _ _ hne _ hs]

end Zair

namespace Zair

/-- Strict order of the little-endian values. -/
def valLt (a b : Bytes) : Prop := leVal a < leVal b

theorem chain_val_lt_mem : ∀ (us : List Bytes) (u : Bytes),
    List.Chain' valLt (u :: us) → ∀ v ∈ us, leVal u < leVal v
  | [], _, _, v, hv => by simp at hv
  | w :: us, u, h, v, hv => by
    obtain ⟨h1, h2⟩ := List.chain'_cons.mp h
    rcases List.mem_cons.mp hv with rfl | hv2
    · exact h1
    · exact Nat.lt_trans h1 (chain_val_lt_mem us w h2 v hv2)

theorem chain_val_pairwise : ∀ (us : List Bytes), List.Chain' valLt us → List.Pairwise valLt us
  | [], _ => List.Pairwise.nil
  | u :: us, h =>
    List.Pairwise.cons (fun v hv => chain_val_lt_mem us u h v hv)
      (chain_val_pairwise us h.tail)

theorem chain_val_filter (p : Bytes → Bool) (us : List Bytes) (h : List.Chain' valLt us) :
    List.Chain' valLt (us.filter p) :=
  List.Pairwise.chain' ((chain_val_pairwise us h).filter p)

/-- On value-sorted, well-formed users, the gap scan collects exactly the users
strictly between the bounds and leaves exactly those at or beyond the right
bound (all collected or skipped users being consumed). -/
theorem scanGap_sorted (left right : Bytes) (hl : nfWF left) (hr : nfWF right) :
    ∀ (us : List Bytes), List.Chain' valLt us → (∀ u ∈ us, nfWF u) →
      (scanGap left right us).1
        = us.filter (fun u => decide (leVal left < leVal u ∧ leVal u < leVal right))
      ∧ (scanGap left right us).2
        = us.filter (fun u => decide (leVal left < leVal u ∧ leVal right ≤ leVal u))
  | [], _, _ => by simp [scanGap]
  | u :: rest, hchain, hwf => by
    have hu : nfWF u := hwf u (by simp)
    have hcl : orchard_cmp u left = natCmp (leVal u) (leVal left) :=
      orchard_cmp_eq_natCmp_leVal u left hu hl
    have hcr : orchard_cmp u right = natCmp (leVal u) (leVal right) :=
      orchard_cmp_eq_natCmp_leVal u right hu hr
    have ih := scanGap_sorted left right hl hr rest hchain.tail
      (fun v hv => hwf v (by simp [hv]))
    have hrest_gt : ∀ v ∈ rest, leVal u < leVal v :=
      chain_val_lt_mem rest u hchain
    unfold scanGap
    by_cases h1 : orchard_cmp u left = .gt
    · have hvl : leVal left < leVal u := by
        rw [hcl] at h1
        exact natCmp_eq_gt.mp h1
      rw [if_neg (by simp [h1])]
      by_cases h2 : orchard_cmp u right = .lt
      · have hvr : leVal u < leVal right := by
          rw [hcr] at h2
          exact natCmp_eq_lt.mp h2
        rw [if_neg (by simp [h2])]
        constructor
        · show u :: (scanGap left right rest).1 = _
          rw [List.filter_cons_of_pos (by simp only [decide_eq_true_eq]; exact ⟨hvl, hvr⟩)]
          rw [ih.1]
        · show (scanGap left right rest).2 = _
          rw [List.filter_cons_of_neg (by simp only [decide_eq_true_eq]; omega)]
          exact ih.2
      · have hvr : leVal right ≤ leVal u := by
          rw [hcr] at h2
          by_contra hc
          push_neg at hc
          exact h2 (natCmp_eq_lt.mpr hc)
        rw [if_pos (by simp [h2])]
        constructor
        · show ([] : List Bytes) = _
          symm
          rw [List.filter_eq_nil_iff]
          intro v hv
          rcases List.mem_cons.mp hv with rfl | hv2
          · simp only [decide_eq_true_eq]
            omega
          · have := hrest_gt v hv2
            simp only [decide_eq_true_eq]
            omega
        · show u :: rest = _
          symm
          rw [List.filter_eq_self]
          intro v hv
          rcases List.mem_cons.mp hv with rfl | hv2
          · simp only [decide_eq_true_eq]
            omega
          · have := hrest_gt v hv2
            simp only [decide_eq_true_eq]
            omega
    · have hvl : leVal u ≤ leVal left := by
        rw [hcl] at h1
        by_contra hc
        push_neg at hc
        exact h1 (natCmp_eq_gt.mpr hc)
      rw [if_pos (by simp [h1])]
      constructor
      · rw [List.filter_cons_of_neg (by simp only [decide_eq_true_eq]; omega)]
        exact ih.1
      · rw [List.filter_cons_of_neg (by simp only [decide_eq_true_eq]; omega)]
        exact ih.2

end Zair

namespace Zair

/-- The ordered gap boundary nullifiers: `MIN`, then the chain entries, then the
Orchard `MAX` sentinel. -/
def orchardBnd (chain : List CanonicalOrchardNullifier) (k : Nat) : Bytes :=
  if k = 0 then minNullifier
  else if k ≤ chain.length then (chain.getD (k - 1) ⟨[], 0⟩).bytes
  else orchard_max_nullifier

/-- The little-endian value of a gap boundary. -/
def vb (chain : List CanonicalOrchardNullifier) (k : Nat) : Nat :=
  leVal (orchardBnd chain k)

theorem orchard_gap_nf (chain : List CanonicalOrchardNullifier) (g : Nat)
    (hg : g ≤ chain.length) (minN maxN : Nat) :
    (orchard_gap_bounds chain g minN orchard_max_nullifier maxN).left_nf
        = orchardBnd chain g
    ∧ (orchard_gap_bounds chain g minN orchard_max_nullifier maxN).right_nf
        = orchardBnd chain (g + 1) := by
  unfold orchard_gap_bounds orchardBnd
  by_cases hc : chain = []
  · subst hc
    rw [if_pos rfl]
    simp only [List.length_nil, Nat.le_zero] at hg
    subst hg
    constructor
    · rw [if_pos rfl]
    · rw [if_neg (by omega), if_neg (by simp)]
  · rw [if_neg hc]
    have hlen0 : 0 < chain.length := List.length_pos.mpr hc
    by_cases hg0 : g = 0
    · subst hg0
      rw [if_pos rfl]
      constructor
      · rw [if_pos rfl]
      · rw [if_neg (by omega), if_pos (by omega)]
    · rw [if_neg hg0]
      by_cases hgl : g = chain.length
      · rw [if_pos hgl]
        constructor
        · rw [if_neg hg0, if_pos hg]
        · rw [if_neg (by omega), if_neg (by omega)]
      · rw [if_neg hgl, if_pos (by omega)]
        constructor
        · rw [if_neg hg0, if_pos hg]
        · rw [if_neg (by omega), if_pos (by omega)]
          rfl

theorem orchardBnd_wf (chain : List CanonicalOrchardNullifier)
    (hwf : ∀ c ∈ chain, nfWF c.bytes) (k : Nat) : nfWF (orchardBnd chain k) := by
  unfold orchardBnd
  by_cases h0 : k = 0
  · rw [if_pos h0]
    exact minNullifier_wf
  · rw [if_neg h0]
    by_cases hk : k ≤ chain.length
    · rw [if_pos hk]
      have hlt : k - 1 < chain.length := by omega
      rw [List.getD_eq_getElem _ _ hlt]
      exact hwf _ (List.getElem_mem hlt)
    · rw [if_neg hk]
      exact orchard_max_wf

theorem vb_zero (chain : List CanonicalOrchardNullifier) : vb chain 0 = 0 := by
  unfold vb orchardBnd
  rw [if_pos rfl]
  exact leVal_minNullifier

theorem vb_top (chain : List CanonicalOrchardNullifier) :
    vb chain (chain.length + 1) = pallasP - 1 := by
  unfold vb orchardBnd
  rw [if_neg (by omega), if_neg (by omega)]
  exact leVal_orchard_max

theorem vb_mid (chain : List CanonicalOrchardNullifier) (k : Nat) (h1 : 1 ≤ k)
    (h2 : k ≤ chain.length) :
    vb chain k = leVal (chain.getD (k - 1) ⟨[], 0⟩).bytes := by
  unfold vb orchardBnd
  rw [if_neg (by omega), if_pos h2]

/-- Transfer the Orchard byte order on a canonical chain to its values. -/
theorem chain_canon_to_val :
    ∀ (chain : List CanonicalOrchardNullifier), (∀ c ∈ chain, nfWF c.bytes) →
      List.Chain' (fun a b => orchard_cmp a.bytes b.bytes = .lt) chain →
      List.Chain' (fun a b : CanonicalOrchardNullifier => leVal a.bytes < leVal b.bytes) chain
  | [], _, _ => List.chain'_nil
  | [_], _, _ => List.chain'_singleton _
  | a :: b :: rest, hwf, hs => by
    obtain ⟨h1, h2⟩ := List.chain'_cons.mp hs
    rw [List.chain'_cons]
    constructor
    · rw [orchard_cmp_eq_natCmp_leVal a.bytes b.bytes
        (hwf a (by simp)) (hwf b (by simp))] at h1
      exact natCmp_eq_lt.mp h1
    · exact chain_canon_to_val (b :: rest) (fun c hc => hwf c (by simp [List.mem_cons] at hc ⊢; tauto)) h2

theorem chainKey_lt_getD {β : Type} (key : β → Nat) (d : β) :
    ∀ (L : List β) (c : β), List.Chain' (fun a b => key a < key b) (c :: L) →
    ∀ k, k < L.length → key c < key (L.getD k d)
  | [], _, _, k, hk => by simp at hk
  | e :: L, c, h, 0, _ => by
    have h1 := (List.chain'_cons.mp h).1
    rw [List.getD_cons_zero]
    exact h1
  | e :: L, c, h, k + 1, hk => by
    obtain ⟨h1, h2⟩ := List.chain'_cons.mp h
    rw [List.getD_cons_succ]
    exact Nat.lt_trans h1 (chainKey_lt_getD key d L e h2 k (by simpa using hk))

theorem chainKey_pairwise {β : Type} (key : β → Nat) (d : β) :
    ∀ (L : List β), List.Chain' (fun a b => key a < key b) L →
    ∀ i j, i < j → j < L.length → key (L.getD i d) < key (L.getD j d)
  | [], _, _, j, _, hj => by simp at hj
  | c :: L, h, 0, j, hij, hj => by
    rw [show j = (j - 1) + 1 by omega, List.getD_cons_succ, List.getD_cons_zero]
    exact chainKey_lt_getD key d L c h (j - 1) (by simp at hj; omega)
  | c :: L, h, i + 1, j, hij, hj => by
    rw [show j = (j - 1) + 1 by omega, List.getD_cons_succ, List.getD_cons_succ]
    exact chainKey_pairwise key d L h.tail i (j - 1) (by omega) (by simp at hj; omega)

theorem vb_step (chain : List CanonicalOrchardNullifier)
    (_hwf : ∀ c ∈ chain, nfWF c.bytes)
    (hval : List.Chain' (fun a b : CanonicalOrchardNullifier =>
      leVal a.bytes < leVal b.bytes) chain)
    (hcanon : ∀ c ∈ chain, leVal c.bytes < pallasP)
    (k : Nat) (hk : k ≤ chain.length) : vb chain k ≤ vb chain (k + 1) := by
  by_cases h0 : k = 0
  · subst h0
    rw [vb_zero]
    exact Nat.zero_le _
  · by_cases hkl : k = chain.length
    · subst hkl
      rw [vb_top, vb_mid chain chain.length (by omega) (by omega)]
      have hlt : chain.length - 1 < chain.length := by omega
      have hmem : chain.getD (chain.length - 1) ⟨[], 0⟩ ∈ chain := by
        rw [List.getD_eq_getElem _ _ hlt]
        exact List.getElem_mem hlt
      have hcan := hcanon _ hmem
      omega
    · rw [vb_mid chain k (by omega) hk, vb_mid chain (k + 1) (by omega) (by omega)]
      have hpw : leVal (chain.getD (k - 1) ⟨[], 0⟩).bytes
          < leVal (chain.getD k ⟨[], 0⟩).bytes :=
        chainKey_pairwise (fun c : CanonicalOrchardNullifier => leVal c.bytes)
          ⟨[], 0⟩ chain hval (k - 1) k (by omega) (by omega)
      simp only [Nat.add_sub_cancel]
      omega

theorem vb_mono (chain : List CanonicalOrchardNullifier)
    (hwf : ∀ c ∈ chain, nfWF c.bytes)
    (hval : List.Chain' (fun a b : CanonicalOrchardNullifier =>
      leVal a.bytes < leVal b.bytes) chain)
    (hcanon : ∀ c ∈ chain, leVal c.bytes < pallasP) :
    ∀ (i j : Nat), i ≤ j → j ≤ chain.length + 1 → vb chain i ≤ vb chain j := by
  intro i j
  induction j with
  | zero =>
    intro hij _
    have : i = 0 := by omega
    subst this
    exact Nat.le_refl _
  | succ j ih =>
    intro hij hj
    rcases Nat.eq_or_lt_of_le hij with heq | hlt
    · subst heq
      exact Nat.le_refl _
    · exact Nat.le_trans (ih (by omega) (by omega))
        (vb_step chain hwf hval hcanon j (by omega))

end Zair

namespace Zair

theorem orchardFusedGo_cons (chain : List CanonicalOrchardNullifier)
    (minN : Nat) (max_nf : Bytes) (maxN : Nat) (g : Nat) (rest : List Nat)
    (users : List Bytes) :
    (orchardFusedGo chain minN max_nf maxN (g :: rest) users).2.2
      = ((scanGap (orchard_gap_bounds chain g minN max_nf maxN).left_nf
          (orchard_gap_bounds chain g minN max_nf maxN).right_nf users).1.map
          (fun u => ⟨u, g, (orchard_gap_bounds chain g minN max_nf maxN).left_nf,
            (orchard_gap_bounds chain g minN max_nf maxN).right_nf⟩))
        ++ (orchardFusedGo chain minN max_nf maxN rest
            (scanGap (orchard_gap_bounds chain g minN max_nf maxN).left_nf
              (orchard_gap_bounds chain g minN max_nf maxN).right_nf users).2).2.2 := rfl

/-- The mapping produced by the fused Orchard build: gap by gap, exactly the
users whose value lies strictly inside the gap, tagged with the gap index and
its boundary nullifiers. -/
theorem orchardFusedGo_mapping (chain : List CanonicalOrchardNullifier)
    (hwfC : ∀ c ∈ chain, nfWF c.bytes)
    (hval : List.Chain' (fun a b : CanonicalOrchardNullifier =>
      leVal a.bytes < leVal b.bytes) chain)
    (hcanon : ∀ c ∈ chain, leVal c.bytes < pallasP)
    (minN maxN : Nat) :
    ∀ (m g : Nat) (users : List Bytes), g + m = chain.length + 1 →
      List.Chain' valLt users → (∀ u ∈ users, nfWF u) →
      (orchardFusedGo chain minN orchard_max_nullifier maxN (List.range' g m) users).2.2
        = ((List.range' g m).map (fun k =>
            (users.filter (fun u =>
              decide (leVal (orchardBnd chain k) < leVal u
                ∧ leVal u < leVal (orchardBnd chain (k + 1))))).map
              (fun u => ⟨u, k, orchardBnd chain k, orchardBnd chain (k + 1)⟩))).flatten
  | 0, g, users, _, _, _ => by
    simp [orchardFusedGo, List.range'_zero]
  | m + 1, g, users, hgm, hsort, hwfU => by
    have hgn : g ≤ chain.length := by omega
    rw [List.range'_succ]
    rw [orchardFusedGo_cons]
    have hnf := orchard_gap_nf chain g hgn minN maxN
    rw [hnf.1, hnf.2]
    have hsg := scanGap_sorted (orchardBnd chain g) (orchardBnd chain (g + 1))
      (orchardBnd_wf chain hwfC g) (orchardBnd_wf chain hwfC (g + 1)) users hsort hwfU
    rw [hsg.1, hsg.2]
    have hrem_sort : List.Chain' valLt (users.filter (fun u =>
        decide (leVal (orchardBnd chain g) < leVal u
          ∧ leVal (orchardBnd chain (g + 1)) ≤ leVal u))) :=
      chain_val_filter _ users hsort
    have hrem_wf : ∀ u ∈ users.filter (fun u =>
        decide (leVal (orchardBnd chain g) < leVal u
          ∧ leVal (orchardBnd chain (g + 1)) ≤ leVal u)), nfWF u :=
      fun u hu => hwfU u (List.mem_filter.mp hu).1
    rw [orchardFusedGo_mapping chain hwfC hval hcanon minN maxN m (g + 1) _
      (by omega) hrem_sort hrem_wf]
    rw [List.map_cons, List.flatten_cons]
    congr 1
    apply congrArg
    apply List.map_congr_left
    intro k hk
    have hk2 : g + 1 ≤ k ∧ k ≤ chain.length := by
      rcases List.mem_range'.mp hk with ⟨i, hi, rfl⟩
      omega
    congr 1
    rw [List.filter_filter]
    apply List.filter_congr
    intro u hu
    cases hbool : decide (leVal (orchardBnd chain k) < leVal u
        ∧ leVal u < leVal (orchardBnd chain (k + 1))) with
    | false => rw [Bool.false_and]
    | true =>
      rw [Bool.true_and]
      rw [decide_eq_true_eq] at hbool
      have hm1 : leVal (orchardBnd chain g) ≤ leVal (orchardBnd chain k) :=
        vb_mono chain hwfC hval hcanon g k (by omega) (by omega)
      have hm2 : leVal (orchardBnd chain (g + 1)) ≤ leVal (orchardBnd chain k) :=
        vb_mono chain hwfC hval hcanon (g + 1) k (by omega) (by omega)
      apply decide_eq_true
      omega

end Zair

namespace Zair

/-- Transfer the Orchard byte order on well-formed byte strings to their
little-endian values. -/
theorem chain_bytes_to_val :
    ∀ (U : List Bytes), (∀ b ∈ U, nfWF b) →
      List.Chain' (fun a b => orchard_cmp a b = .lt) U →
      List.Chain' valLt U
  | [], _, _ => List.chain'_nil
  | [_], _, _ => List.chain'_singleton _
  | a :: b :: rest, hwf, hs => by
    obtain ⟨h1, h2⟩ := List.chain'_cons.mp hs
    rw [List.chain'_cons]
    constructor
    · rw [orchard_cmp_eq_natCmp_leVal a b (hwf a (by simp)) (hwf b (by simp))] at h1
      exact natCmp_eq_lt.mp h1
    · exact chain_bytes_to_val (b :: rest)
        (fun c hc => hwf c (by simp [List.mem_cons] at hc ⊢; tauto)) h2

theorem chain_valLt_nodup (U : List Bytes) (h : List.Chain' valLt U) : U.Nodup :=
  List.Pairwise.imp (fun hab heq => by subst heq; exact Nat.lt_irrefl _ hab)
    (chain_val_pairwise U h)

/-- The number of elements whose key lies strictly below `x`. -/
def natCountLt {β : Type} (key : β → Nat) (C : List β) (x : Nat) : Nat :=
  (C.filter (fun c => decide (key c < x))).length

theorem natCountLt_cons {β : Type} (key : β → Nat) (c : β) (x : Nat) (C : List β) :
    natCountLt key (c :: C) x
      = (if key c < x then 1 else 0) + natCountLt key C x := by
  unfold natCountLt
  rw [List.filter_cons]
  by_cases h : key c < x
  · simp [h]
    omega
  · simp [h]

theorem natCountLt_le {β : Type} (key : β → Nat) (C : List β) (x : Nat) :
    natCountLt key C x ≤ C.length :=
  List.length_filter_le _ _

/-- On a list strictly sorted by key, the elements with key below `x` are
exactly the first `natCountLt` positions. -/
theorem natSorted_countLt_spec {β : Type} (key : β → Nat) (d : β) :
    ∀ (C : List β), List.Chain' (fun a b => key a < key b) C →
      ∀ (x k : Nat), k < C.length →
        (k < natCountLt key C x ↔ key (C.getD k d) < x)
  | [], _, x, k, hk => by simp at hk
  | c :: C, hs, x, 0, _ => by
    rw [natCountLt_cons, List.getD_cons_zero]
    constructor
    · intro hpos
      by_cases hcx : key c < x
      · exact hcx
      · rw [if_neg hcx] at hpos
        simp only [Nat.zero_add] at hpos
        have hCne : 0 < C.length := by
          have := natCountLt_le key C x
          omega
        have h0 := (natSorted_countLt_spec key d C hs.tail x 0 hCne).mp hpos
        have hlt := chainKey_lt_getD key d C c hs 0 hCne
        omega
    · intro hcx
      rw [if_pos hcx]
      omega
  | c :: C, hs, x, k + 1, hk => by
    rw [natCountLt_cons, List.getD_cons_succ]
    have hkC : k < C.length := by simpa using hk
    have hiff := natSorted_countLt_spec key d C hs.tail x k hkC
    by_cases hcx : key c < x
    · rw [if_pos hcx]
      constructor
      · intro h
        exact hiff.mp (by omega)
      · intro h
        have := hiff.mpr h
        omega
    · rw [if_neg hcx]
      constructor
      · intro hlt
        exact hiff.mp (by omega)
      · intro hCk
        have hlt := chainKey_lt_getD key d C c hs k hkC
        omega

/-- On a strictly key-sorted list avoiding the key `x`, the element at the
insertion index has key strictly above `x`. -/
theorem natSorted_countLt_gt {β : Type} (key : β → Nat) (d : β) (C : List β)
    (hs : List.Chain' (fun a b => key a < key b) C) (x : Nat)
    (hmem : ∀ c ∈ C, key c ≠ x) (hlt : natCountLt key C x < C.length) :
    x < key (C.getD (natCountLt key C x) d) := by
  have hnotlt : ¬ key (C.getD (natCountLt key C x) d) < x := by
    intro hc
    have := (natSorted_countLt_spec key d C hs x (natCountLt key C x) hlt).mpr hc
    omega
  have hne : key (C.getD (natCountLt key C x) d) ≠ x := by
    apply hmem
    rw [List.getD_eq_getElem _ _ hlt]
    exact List.getElem_mem _
  omega

/-- The Orchard comparison count agrees with the little-endian value count on
well-formed inputs. -/
theorem countLt_orchard_eq (C : List Bytes) (u : Bytes)
    (hwfC : ∀ b ∈ C, nfWF b) (hwfu : nfWF u) :
    countLt orchard_cmp C u = natCountLt (fun b => leVal b) C (leVal u) := by
  unfold countLt natCountLt
  congr 1
  apply List.filter_congr
  intro c hc
  rw [orchard_cmp_eq_natCmp_leVal c u (hwfC c hc) hwfu]
  exact decide_eq_decide.mpr natCmp_eq_lt

/-- Byte projection of a mapped canonical chain entry. -/
theorem chCH_getD (C : List Bytes) (k : Nat) (hk : k < C.length) :
    ((C.map (fun b => (⟨b, leVal b⟩ : CanonicalOrchardNullifier))).getD k
      ⟨[], 0⟩).bytes = C.getD k [] := by
  rw [List.getD_eq_getElem _ _ (by simpa using hk), List.getD_eq_getElem _ _ hk]
  simp

/-- Filtering a duplicate-free list for one known member conjoined with a
predicate keeps that member exactly when the predicate holds of it. -/
theorem filter_eq_key {β : Type} [DecidableEq β] :
    ∀ (U : List β), U.Nodup → ∀ (u : β) (p : β → Bool), u ∈ U →
      U.filter (fun v => decide (v = u) && p v) = if p u then [u] else []
  | [], _, u, _, hu => absurd hu (List.not_mem_nil u)
  | v :: U, hnd, u, p, hu => by
    obtain ⟨hvU, hndU⟩ := List.nodup_cons.mp hnd
    rw [List.filter_cons]
    by_cases hvu : v = u
    · subst hvu
      have htail : U.filter (fun w => decide (w = v) && p w) = [] := by
        apply List.filter_eq_nil_iff.mpr
        intro w hw
        have hwv : ¬ w = v := fun he => hvU (he ▸ hw)
        simp [hwv]
      by_cases hp : p v = true
      · rw [if_pos (by simp [hp]), htail, if_pos hp]
      · rw [if_neg (by simp [hp]), htail, if_neg hp]
    · have hmem : u ∈ U := by
        rcases List.mem_cons.mp hu with h | h
        · exact absurd h.symm hvu
        · exact h
      rw [if_neg (by simp [hvu]), filter_eq_key U hndU u p hmem]

/-- Flattening a mapped list in which every index but one yields the empty
list gives the value at that index. -/
theorem flatten_map_single {β : Type} :
    ∀ (L : List Nat) (f : Nat → List β) (g : Nat), L.Nodup → g ∈ L →
      (∀ k ∈ L, k ≠ g → f k = []) →
      (L.map f).flatten = f g
  | [], _, g, _, hg, _ => absurd hg (List.not_mem_nil g)
  | a :: L, f, g, hnd, hg, hz => by
    obtain ⟨haL, hndL⟩ := List.nodup_cons.mp hnd
    rw [List.map_cons, List.flatten_cons]
    by_cases hag : a = g
    · subst hag
      have htail : (L.map f).flatten = [] := by
        rw [List.flatten_eq_nil_iff]
        intro l hl
        obtain ⟨k, hkL, rfl⟩ := List.mem_map.mp hl
        exact hz k (List.mem_cons_of_mem _ hkL) (fun he => haL (he ▸ hkL))
      rw [htail, List.append_nil]
    · have hgL : g ∈ L := by
        rcases List.mem_cons.mp hg with h | h
        · exact absurd h.symm hag
        · exact h
      rw [hz a (List.mem_cons_self _ _) hag, List.nil_append]
      exact flatten_map_single L f g hndL hgL
        (fun k hk => hz k (List.mem_cons_of_mem _ hk))

end Zair

namespace Zair

/-- On sorted canonical inputs the fused Orchard build succeeds and its result
is the fused loop over the canonical chain. -/
theorem from_chain_sorted_eq (C U : List Bytes)
    (hCcan : ∀ b ∈ C, leVal b < pallasP) (hUcan : ∀ b ∈ U, leVal b < pallasP)
    (hCs : List.Chain' (fun a b => orchard_cmp a b = .lt) C)
    (hUs : List.Chain' (fun a b => orchard_cmp a b = .lt) U) :
    from_chain_and_user_nullifiers C U
      = (let CH := C.map (fun b => (⟨b, leVal b⟩ : CanonicalOrchardNullifier));
         let r := orchardFusedGo CH (leVal minNullifier) orchard_max_nullifier
           (leVal orchard_max_nullifier) (List.range (C.length + 1)) U;
         .ok (⟨r.1, r.2.1, C.length + 1⟩, r.2.2)) := by
  unfold from_chain_and_user_nullifiers
  rw [canonicalize_chain_sorted "chain" C hCcan hCs,
      canonicalize_user_sorted "user" U hUcan hUs]
  have hmin : orchard_node_from_bytes minNullifier = some (leVal minNullifier) := by
    unfold orchard_node_from_bytes
    rw [if_pos (by rw [leVal_minNullifier]; exact pallasP_pos)]
  have hmax : orchard_node_from_bytes orchard_max_nullifier
      = some (leVal orchard_max_nullifier) := by
    unfold orchard_node_from_bytes
    rw [if_pos (by rw [leVal_orchard_max]; have := pallasP_pos; omega)]
  rw [hmin, hmax]
  simp only [List.length_map]

end Zair

namespace Zair

/-- Per-user specification of the fused Orchard build on sorted canonical
inputs: the leaf count is `|chain| + 1`; a user nullifier that is a chain
member receives no `TreePosition`; a user nullifier that is not a chain member
and lies strictly between the `MIN` and `MAX` sentinels receives exactly one
`TreePosition`, at gap index `countLt orchard_cmp C u`, whose bounds bracket it
strictly in the Orchard order. -/
theorem orchard_fused_spec (C U : List Bytes)
    (hCwf : ∀ b ∈ C, nfWF b) (hUwf : ∀ b ∈ U, nfWF b)
    (hCcan : ∀ b ∈ C, leVal b < pallasP) (hUcan : ∀ b ∈ U, leVal b < pallasP)
    (hCs : List.Chain' (fun a b => orchard_cmp a b = .lt) C)
    (hUs : List.Chain' (fun a b => orchard_cmp a b = .lt) U)
    (u : Bytes) (hu : u ∈ U) (tree : OrchardNonMembershipTree)
    (mapping : List TreePosition)
    (hok : from_chain_and_user_nullifiers C U = .ok (tree, mapping)) :
    tree.leaf_count = C.length + 1
    ∧ (u ∈ C → mapping.filter (fun tp => decide (tp.nullifier = u)) = [])
    ∧ (u ∉ C → orchard_cmp minNullifier u = .lt →
        orchard_cmp u orchard_max_nullifier = .lt →
        mapping.filter (fun tp => decide (tp.nullifier = u))
          = [⟨u, countLt orchard_cmp C u,
              orchardBnd (C.map (fun b => (⟨b, leVal b⟩ : CanonicalOrchardNullifier)))
                (countLt orchard_cmp C u),
              orchardBnd (C.map (fun b => (⟨b, leVal b⟩ : CanonicalOrchardNullifier)))
                (countLt orchard_cmp C u + 1)⟩]
        ∧ orchard_cmp
            (orchardBnd (C.map (fun b => (⟨b, leVal b⟩ : CanonicalOrchardNullifier)))
              (countLt orchard_cmp C u)) u = .lt
        ∧ orchard_cmp u
            (orchardBnd (C.map (fun b => (⟨b, leVal b⟩ : CanonicalOrchardNullifier)))
              (countLt orchard_cmp C u + 1)) = .lt) := by
  rw [from_chain_sorted_eq C U hCcan hUcan hCs hUs] at hok
  have hinj := Except.ok.inj hok
  have hleaf : tree.leaf_count = C.length + 1 :=
    (congrArg (fun p => p.1.leaf_count) hinj).symm
  have hmapping : mapping
      = (orchardFusedGo (C.map (fun b => (⟨b, leVal b⟩ : CanonicalOrchardNullifier)))
          (leVal minNullifier) orchard_max_nullifier (leVal orchard_max_nullifier)
          (List.range (C.length + 1)) U).2.2 :=
    (congrArg (fun p => p.2) hinj).symm
  have hwfCH : ∀ c ∈ C.map (fun b => (⟨b, leVal b⟩ : CanonicalOrchardNullifier)),
      nfWF c.bytes := by
    intro c hc
    obtain ⟨b, hb, rfl⟩ := List.mem_map.mp hc
    exact hCwf b hb
  have hchainCH : List.Chain'
      (fun a b : CanonicalOrchardNullifier => orchard_cmp a.bytes b.bytes = .lt)
      (C.map (fun b => (⟨b, leVal b⟩ : CanonicalOrchardNullifier))) := by
    rw [List.chain'_map]
    exact hCs
  have hvalCH := chain_canon_to_val _ hwfCH hchainCH
  have hcanonCH : ∀ c ∈ C.map (fun b => (⟨b, leVal b⟩ : CanonicalOrchardNullifier)),
      leVal c.bytes < pallasP := by
    intro c hc
    obtain ⟨b, hb, rfl⟩ := List.mem_map.mp hc
    exact hCcan b hb
  have hUval : List.Chain' valLt U := chain_bytes_to_val U hUwf hUs
  have hUnd : U.Nodup := chain_valLt_nodup U hUval
  have hwfu : nfWF u := hUwf u hu
  have hCval : List.Chain' (fun a b : Bytes => leVal a < leVal b) C :=
    chain_bytes_to_val C hCwf hCs
  have hg0 := countLt_orchard_eq C u hCwf hwfu
  have hgle : countLt orchard_cmp C u ≤ C.length := countLt_le _ _ _
  rw [List.range_eq_range'] at hmapping
  rw [orchardFusedGo_mapping
    (C.map (fun b => (⟨b, leVal b⟩ : CanonicalOrchardNullifier)))
    hwfCH hvalCH hcanonCH (leVal minNullifier) (leVal orchard_max_nullifier)
    (C.length + 1) 0 U (by simp) hUval hUwf] at hmapping
  have hperk : ∀ k : Nat,
      ((U.filter (fun v => decide (leVal (orchardBnd
          (C.map (fun b => (⟨b, leVal b⟩ : CanonicalOrchardNullifier))) k) < leVal v
          ∧ leVal v < leVal (orchardBnd
            (C.map (fun b => (⟨b, leVal b⟩ : CanonicalOrchardNullifier))) (k + 1))))).map
        (fun v => (⟨v, k,
          orchardBnd (C.map (fun b => (⟨b, leVal b⟩ : CanonicalOrchardNullifier))) k,
          orchardBnd (C.map (fun b => (⟨b, leVal b⟩ : CanonicalOrchardNullifier)))
            (k + 1)⟩ : TreePosition))).filter
        (fun tp => decide (tp.nullifier = u))
      = if decide (leVal (orchardBnd
            (C.map (fun b => (⟨b, leVal b⟩ : CanonicalOrchardNullifier))) k) < leVal u
          ∧ leVal u < leVal (orchardBnd
            (C.map (fun b => (⟨b, leVal b⟩ : CanonicalOrchardNullifier))) (k + 1))) = true
        then [(⟨u, k,
          orchardBnd (C.map (fun b => (⟨b, leVal b⟩ : CanonicalOrchardNullifier))) k,
          orchardBnd (C.map (fun b => (⟨b, leVal b⟩ : CanonicalOrchardNullifier)))
            (k + 1)⟩ : TreePosition)]
        else [] := by
    intro k
    rw [List.filter_map]
    have hFeq : (U.filter (fun v => decide (leVal (orchardBnd
        (C.map (fun b => (⟨b, leVal b⟩ : CanonicalOrchardNullifier))) k) < leVal v
        ∧ leVal v < leVal (orchardBnd
          (C.map (fun b => (⟨b, leVal b⟩ : CanonicalOrchardNullifier))) (k + 1))))).filter
        ((fun tp => decide (tp.nullifier = u))
          ∘ (fun v => (⟨v, k,
            orchardBnd (C.map (fun b => (⟨b, leVal b⟩ : CanonicalOrchardNullifier))) k,
            orchardBnd (C.map (fun b => (⟨b, leVal b⟩ : CanonicalOrchardNullifier)))
              (k + 1)⟩ : TreePosition)))
      = U.filter (fun v => decide (v = u) && decide (leVal (orchardBnd
          (C.map (fun b => (⟨b, leVal b⟩ : CanonicalOrchardNullifier))) k) < leVal v
          ∧ leVal v < leVal (orchardBnd
            (C.map (fun b => (⟨b, leVal b⟩ : CanonicalOrchardNullifier))) (k + 1)))) := by
      rw [List.filter_filter]
      apply List.filter_congr
      intro x _
      rfl
    rw [hFeq, filter_eq_key U hUnd u _ hu]
    by_cases hc : decide (leVal (orchardBnd
        (C.map (fun b => (⟨b, leVal b⟩ : CanonicalOrchardNullifier))) k) < leVal u
        ∧ leVal u < leVal (orchardBnd
          (C.map (fun b => (⟨b, leVal b⟩ : CanonicalOrchardNullifier))) (k + 1))) = true
    · simp [hc]
    · simp [hc]
  have hfm : mapping.filter (fun tp => decide (tp.nullifier = u))
      = ((List.range' 0 (C.length + 1)).map (fun k =>
          if decide (leVal (orchardBnd
              (C.map (fun b => (⟨b, leVal b⟩ : CanonicalOrchardNullifier))) k) < leVal u
              ∧ leVal u < leVal (orchardBnd
                (C.map (fun b => (⟨b, leVal b⟩ : CanonicalOrchardNullifier))) (k + 1)))
            = true
          then [(⟨u, k,
            orchardBnd (C.map (fun b => (⟨b, leVal b⟩ : CanonicalOrchardNullifier))) k,
            orchardBnd (C.map (fun b => (⟨b, leVal b⟩ : CanonicalOrchardNullifier)))
              (k + 1)⟩ : TreePosition)]
          else [])).flatten := by
    rw [hmapping, List.filter_flatten, List.map_map]
    apply congrArg
    apply List.map_congr_left
    intro k _
    exact hperk k
  have hmember : u ∈ C → ∀ k, k ≤ C.length →
      ¬ (leVal (orchardBnd
          (C.map (fun b => (⟨b, leVal b⟩ : CanonicalOrchardNullifier))) k) < leVal u
        ∧ leVal u < leVal (orchardBnd
          (C.map (fun b => (⟨b, leVal b⟩ : CanonicalOrchardNullifier))) (k + 1))) := by
    intro huC k hk hcontra
    obtain ⟨hc1, hc2⟩ := hcontra
    obtain ⟨m, hm, hmu⟩ := List.getElem_of_mem huC
    have hveq : leVal u
        = vb (C.map (fun b => (⟨b, leVal b⟩ : CanonicalOrchardNullifier))) (m + 1) := by
      rw [vb_mid _ (m + 1) (by omega) (by rw [List.length_map]; omega),
        Nat.add_sub_cancel, chCH_getD C m hm, List.getD_eq_getElem _ _ hm, hmu]
    rcases Nat.lt_or_ge k (m + 1) with hlt | hge
    · have hmono := vb_mono _ hwfCH hvalCH hcanonCH (k + 1) (m + 1)
        (by omega) (by rw [List.length_map]; omega)
      simp only [vb] at hmono hveq
      omega
    · have hmono := vb_mono _ hwfCH hvalCH hcanonCH (m + 1) k hge
        (by rw [List.length_map]; omega)
      simp only [vb] at hmono hveq
      omega
  refine ⟨hleaf, ?_, ?_⟩
  · intro huC
    rw [hfm, List.flatten_eq_nil_iff]
    intro l hl
    obtain ⟨k, hkmem, rfl⟩ := List.mem_map.mp hl
    have hkle : k ≤ C.length := by
      have := List.mem_range'_1.mp hkmem
      omega
    rw [if_neg (by simp only [decide_eq_true_eq]; exact hmember huC k hkle)]
  · intro hnotin hlo hhi
    have h0u : 0 < leVal u := by
      rw [orchard_cmp_eq_natCmp_leVal minNullifier u minNullifier_wf hwfu] at hlo
      have hv := natCmp_eq_lt.mp hlo
      rw [leVal_minNullifier] at hv
      exact hv
    have hup : leVal u < pallasP - 1 := by
      rw [orchard_cmp_eq_natCmp_leVal u orchard_max_nullifier hwfu orchard_max_wf] at hhi
      have hv := natCmp_eq_lt.mp hhi
      rw [leVal_orchard_max] at hv
      exact hv
    have hlow : leVal (orchardBnd
        (C.map (fun b => (⟨b, leVal b⟩ : CanonicalOrchardNullifier)))
        (countLt orchard_cmp C u)) < leVal u := by
      by_cases h0 : countLt orchard_cmp C u = 0
      · rw [h0]
        show vb (C.map (fun b => (⟨b, leVal b⟩ : CanonicalOrchardNullifier))) 0 < leVal u
        rw [vb_zero]
        exact h0u
      · show vb (C.map (fun b => (⟨b, leVal b⟩ : CanonicalOrchardNullifier)))
          (countLt orchard_cmp C u) < leVal u
        rw [vb_mid _ (countLt orchard_cmp C u) (by omega)
          (by rw [List.length_map]; exact hgle),
          chCH_getD C (countLt orchard_cmp C u - 1) (by omega)]
        exact (natSorted_countLt_spec (fun b => leVal b) [] C hCval (leVal u)
          (countLt orchard_cmp C u - 1) (by omega)).mp (by rw [← hg0]; omega)
    have hhigh : leVal u < leVal (orchardBnd
        (C.map (fun b => (⟨b, leVal b⟩ : CanonicalOrchardNullifier)))
        (countLt orchard_cmp C u + 1)) := by
      by_cases hEnd : countLt orchard_cmp C u = C.length
      · rw [hEnd]
        show leVal u
          < vb (C.map (fun b => (⟨b, leVal b⟩ : CanonicalOrchardNullifier))) (C.length + 1)
        have hvt := vb_top (C.map (fun b => (⟨b, leVal b⟩ : CanonicalOrchardNullifier)))
        rw [List.length_map] at hvt
        rw [hvt]
        exact hup
      · have hklt : countLt orchard_cmp C u < C.length := by omega
        show leVal u < vb (C.map (fun b => (⟨b, leVal b⟩ : CanonicalOrchardNullifier)))
          (countLt orchard_cmp C u + 1)
        rw [vb_mid _ (countLt orchard_cmp C u + 1) (by omega)
          (by rw [List.length_map]; omega), Nat.add_sub_cancel,
          chCH_getD C (countLt orchard_cmp C u) hklt]
        have hne : ∀ c ∈ C, leVal c ≠ leVal u := by
          intro c hc heq
          apply hnotin
          have hceq : orchard_cmp c u = .eq := by
            rw [orchard_cmp_eq_natCmp_leVal c u (hCwf c hc) hwfu]
            exact natCmp_eq_eq.mpr heq
          have hcu := orchard_cmp_eq_iff.mp hceq
          rw [← hcu]
          exact hc
        have hgt := natSorted_countLt_gt (fun b => leVal b) [] C hCval (leVal u) hne
          (by rw [← hg0]; exact hklt)
        rw [← hg0] at hgt
        exact hgt
    have huniq : ∀ k, k ≤ C.length → k ≠ countLt orchard_cmp C u →
        ¬ (leVal (orchardBnd
            (C.map (fun b => (⟨b, leVal b⟩ : CanonicalOrchardNullifier))) k) < leVal u
          ∧ leVal u < leVal (orchardBnd
            (C.map (fun b => (⟨b, leVal b⟩ : CanonicalOrchardNullifier))) (k + 1))) := by
      intro k hk hkne hcontra
      obtain ⟨hc1, hc2⟩ := hcontra
      rcases Nat.lt_or_ge k (countLt orchard_cmp C u) with hlt | hge
      · have hmono := vb_mono _ hwfCH hvalCH hcanonCH (k + 1) (countLt orchard_cmp C u)
          (by omega) (by rw [List.length_map]; omega)
        simp only [vb] at hmono
        omega
      · have hge1 : countLt orchard_cmp C u + 1 ≤ k := by omega
        have hmono := vb_mono _ hwfCH hvalCH hcanonCH (countLt orchard_cmp C u + 1) k
          hge1 (by rw [List.length_map]; omega)
        simp only [vb] at hmono
        omega
    have hz : ∀ k ∈ List.range' 0 (C.length + 1), k ≠ countLt orchard_cmp C u →
        (if decide (leVal (orchardBnd
            (C.map (fun b => (⟨b, leVal b⟩ : CanonicalOrchardNullifier))) k) < leVal u
            ∧ leVal u < leVal (orchardBnd
              (C.map (fun b => (⟨b, leVal b⟩ : CanonicalOrchardNullifier))) (k + 1)))
          = true
         then [(⟨u, k,
           orchardBnd (C.map (fun b => (⟨b, leVal b⟩ : CanonicalOrchardNullifier))) k,
           orchardBnd (C.map (fun b => (⟨b, leVal b⟩ : CanonicalOrchardNullifier)))
             (k + 1)⟩ : TreePosition)]
         else []) = [] := by
      intro k hk hkne
      have hkr := List.mem_range'_1.mp hk
      rw [if_neg (by simp only [decide_eq_true_eq]; exact huniq k (by omega) hkne)]
    refine ⟨?_, ?_, ?_⟩
    · rw [hfm, flatten_map_single (List.range' 0 (C.length + 1)) _
        (countLt orchard_cmp C u) (List.nodup_range' 0 (C.length + 1))
        (List.mem_range'_1.mpr ⟨Nat.zero_le _, by omega⟩) hz,
        if_pos (decide_eq_true ⟨hlow, hhigh⟩)]
    · rw [orchard_cmp_eq_natCmp_leVal _ u (orchardBnd_wf _ hwfCH _) hwfu]
      exact natCmp_eq_lt.mpr hlow
    · rw [orchard_cmp_eq_natCmp_leVal u _ hwfu (orchardBnd_wf _ hwfCH _)]
      exact natCmp_eq_lt.mpr hhigh

end Zair

namespace Zair

/-! ## Hex serialisation of the claim-bundle private inputs
(`crates/airdrop/src/unspent_notes_proofs.rs`) -/

/-- Modelled from the spec: one lower-case hex digit as its ASCII code
(`0`–`9` = 48–57, `a`–`f` = 97–102), as the `serde_with` `Hex` adapter and the
`zair-core` reversed-hex codec emit (the codec module itself is not among the
provided sources). -/
def hexDigit (n : Nat) : Nat := if n < 10 then 48 + n else 87 + n

/-- The two lower-case hex digits of a byte, high nibble first. -/
def hexByte (b : Nat) : Bytes := [hexDigit (b / 16), hexDigit (b % 16)]

/-- Forward lower-case hex encoding of a byte string (`serde_with::hex::Hex`). -/
def hexEncode (bs : Bytes) : Bytes := (bs.map hexByte).flatten

/-- Modelled from the spec: `ReversedHex` — "reversed-byte hex (little-endian
display)": the bytes are reversed, then hex encoded. -/
def reversedHexEncode (bs : Bytes) : Bytes := hexEncode bs.reverse

/-- `SaplingPrivateInputs` from `unspent_notes_proofs.rs`. -/
structure SaplingPrivateInputs where
  nullifier : Bytes
  note_commitment : Bytes
  note_position : Nat
  left_nullifier : Bytes
  right_nullifier : Bytes
  leaf_position : Nat
  merkle_proof : Bytes
deriving DecidableEq, Repr

/-- The byte-valued JSON fields of `SaplingPrivateInputs` with their encodings,
one association per `#[serde_as]` annotation of the source: `nullifier`,
`note_commitment`, `left_nullifier` and `right_nullifier` are `ReversedHex`,
`merkle_proof` is `Hex`. -/
def SaplingPrivateInputs.jsonByteFields (s : SaplingPrivateInputs) :
    List (String × Bytes) :=
  [("nullifier", reversedHexEncode s.nullifier),
   ("note_commitment", reversedHexEncode s.note_commitment),
   ("left_nullifier", reversedHexEncode s.left_nullifier),
   ("right_nullifier", reversedHexEncode s.right_nullifier),
   ("merkle_proof", hexEncode s.merkle_proof)]

/-- `OrchardPrivateInputs` from `unspent_notes_proofs.rs`. -/
structure OrchardPrivateInputs where
  nullifier : Bytes
  note_commitment : Bytes
  left_nullifier : Bytes
  right_nullifier : Bytes
  leaf_position : Nat
  merkle_proof : Bytes
deriving DecidableEq, Repr

/-- The byte-valued JSON fields of `OrchardPrivateInputs` with their encodings,
per the `#[serde_as]` annotations of the source: `nullifier`, `left_nullifier`
and `right_nullifier` are `ReversedHex`, `note_commitment` and `merkle_proof`
are `Hex`. -/
def OrchardPrivateInputs.jsonByteFields (o : OrchardPrivateInputs) :
    List (String × Bytes) :=
  [("nullifier", reversedHexEncode o.nullifier),
   ("note_commitment", hexEncode o.note_commitment),
   ("left_nullifier", reversedHexEncode o.left_nullifier),
   ("right_nullifier", reversedHexEncode o.right_nullifier),
   ("merkle_proof", hexEncode o.merkle_proof)]

theorem hexDigit_range (n : Nat) (h : n < 16) :
    (48 ≤ hexDigit n ∧ hexDigit n ≤ 57) ∨ (97 ≤ hexDigit n ∧ hexDigit n ≤ 102) := by
  unfold hexDigit
  by_cases h10 : n < 10
  · rw [if_pos h10]
    left
    omega
  · rw [if_neg h10]
    right
    omega

/-- Every character the hex encoder emits is a lower-case hex digit. -/
theorem hexEncode_lower (bs : Bytes) (hbs : ∀ x ∈ bs, x < 256) :
    ∀ c ∈ hexEncode bs, (48 ≤ c ∧ c ≤ 57) ∨ (97 ≤ c ∧ c ≤ 102) := by
  intro c hc
  unfold hexEncode at hc
  obtain ⟨l, hl, hcl⟩ := List.mem_flatten.mp hc
  obtain ⟨b, hb, rfl⟩ := List.mem_map.mp hl
  have hb256 := hbs b hb
  unfold hexByte at hcl
  rcases List.mem_cons.mp hcl with rfl | hcl2
  · exact hexDigit_range _ (by omega)
  · rcases List.mem_cons.mp hcl2 with rfl | hcl3
    · exact hexDigit_range _ (Nat.mod_lt _ (by omega))
    · simp at hcl3

end Zair

namespace Zair

/-! ## Sortedness of the sanitised set -/

/-- Non-strict byte-lexicographic order, the order `is_sorted` checks. -/
def lexLe (a b : Bytes) : Prop := lexCmp a b ≠ Ordering.gt

theorem lexLe_trans {a b c : Bytes} (hab : lexLe a b) (hbc : lexLe b c) :
    lexLe a c := by
  unfold lexLe at hab hbc ⊢
  cases h1 : lexCmp a b with
  | gt => exact absurd h1 hab
  | eq =>
    rw [(lexCmp_eq_eq a b).mp h1]
    exact hbc
  | lt =>
    cases h2 : lexCmp b c with
    | gt => exact absurd h2 hbc
    | eq =>
      rw [← (lexCmp_eq_eq b c).mp h2]
      intro hc
      rw [h1] at hc
      exact Ordering.noConfusion hc
    | lt =>
      intro hc
      rw [lexCmp_trans_lt a b c h1 h2] at hc
      exact Ordering.noConfusion hc

theorem chain'_insertSorted (x : Bytes) :
    ∀ (l : List Bytes), List.Chain' lexLe l →
      List.Chain' lexLe (insertSorted lexCmp x l)
  | [], _ => List.chain'_singleton x
  | y :: ys, h => by
    unfold insertSorted
    by_cases hg : lexCmp x y = .gt
    · rw [if_pos hg]
      have hyx : lexLe y x := by
        unfold lexLe
        rw [lexCmp_eq_gt_iff.mp hg]
        intro hc
        exact Ordering.noConfusion hc
      rw [List.chain'_cons']
      refine ⟨?_, chain'_insertSorted x ys (List.Chain'.tail h)⟩
      intro b hb
      cases ys with
      | nil =>
        simp [insertSorted] at hb
        rw [← hb]
        exact hyx
      | cons z zs =>
        unfold insertSorted at hb
        by_cases hgz : lexCmp x z = .gt
        · rw [if_pos hgz] at hb
          simp at hb
          rw [← hb]
          exact (List.chain'_cons.mp h).1
        · rw [if_neg hgz] at hb
          simp at hb
          rw [← hb]
          exact hyx
    · rw [if_neg hg]
      exact List.chain'_cons.mpr ⟨hg, h⟩

theorem chain'_sortByCmp : ∀ (l : List Bytes), List.Chain' lexLe (sortByCmp lexCmp l)
  | [] => List.chain'_nil
  | a :: rest => by
    show List.Chain' lexLe (insertSorted lexCmp a (sortByCmp lexCmp rest))
    exact chain'_insertSorted a _ (chain'_sortByCmp rest)

theorem chain'_dedupAdjGo (eqb : Bytes → Bytes → Bool) :
    ∀ (prev : Bytes) (l : List Bytes), List.Chain' lexLe (prev :: l) →
      List.Chain' lexLe (prev :: dedupAdjGo eqb prev l)
  | _, [], _ => List.chain'_singleton _
  | prev, b :: bs, h => by
    obtain ⟨h1, h2⟩ := List.chain'_cons.mp h
    unfold dedupAdjGo
    by_cases he : eqb b prev = true
    · rw [if_pos he]
      apply chain'_dedupAdjGo eqb prev bs
      cases bs with
      | nil => exact List.chain'_singleton _
      | cons c cs =>
        rw [List.chain'_cons]
        exact ⟨lexLe_trans h1 (List.chain'_cons.mp h2).1, (List.chain'_cons.mp h2).2⟩
    · rw [if_neg he]
      rw [List.chain'_cons]
      exact ⟨h1, chain'_dedupAdjGo eqb b bs h2⟩

theorem chain'_dedupAdj (eqb : Bytes → Bytes → Bool) (l : List Bytes)
    (h : List.Chain' lexLe l) : List.Chain' lexLe (dedupAdj eqb l) := by
  cases l with
  | nil => exact List.chain'_nil
  | cons a rest => exact chain'_dedupAdjGo eqb a rest h

theorem is_sorted_of_chain : ∀ (l : List Bytes), List.Chain' lexLe l →
    is_sorted l = true
  | [], _ => rfl
  | [_], _ => rfl
  | a :: b :: rest, h => by
    obtain ⟨h1, h2⟩ := List.chain'_cons.mp h
    show (decide (lexCmp a b ≠ Ordering.gt) && is_sorted (b :: rest)) = true
    rw [is_sorted_of_chain (b :: rest) h2, Bool.and_true]
    exact decide_eq_true h1

/-- The sanitised set is sorted under the byte order. -/
theorem is_sorted_sanitise (ns : List Bytes) : is_sorted (sanitise ns) = true :=
  is_sorted_of_chain _ (chain'_dedupAdj _ _ (chain'_sortByCmp ns))

theorem build_merkle_tree_sorted_ok {H : Type} (hash : Bytes → H) (S : List Bytes)
    (hs : is_sorted S = true) : ∃ t, build_merkle_tree hash S = .ok t := by
  cases S with
  | nil => exact ⟨⟨[]⟩, rfl⟩
  | cons first rest =>
    refine ⟨⟨hash (build_leaf minNullifier first) ::
      (((List.zip (first :: rest) rest).map (fun p => hash (build_leaf p.1 p.2))) ++
        [hash (build_leaf ((first :: rest).getLast (by simp)) maxNullifier)])⟩, ?_⟩
    unfold build_merkle_tree
    simp only [hs, Bool.not_true, Bool.false_eq_true, if_false]

end Zair

namespace Zair

/-! ## Serialisation helpers for the dense tree round-trip -/

theorem flatten_length_const : ∀ (L : List Bytes), (∀ b ∈ L, b.length = 32) →
    L.flatten.length = L.length * 32
  | [], _ => rfl
  | b :: L, h => by
    rw [List.flatten_cons, List.length_append, h b (by simp),
      flatten_length_const L (fun v hv => h v (by simp [hv]))]
    simp [Nat.succ_mul]
    omega

theorem chunksExact32_flatten : ∀ (L : List Bytes), (∀ b ∈ L, b.length = 32) →
    chunksExact32 L.flatten = L
  | [], _ => by
    rw [chunksExact32]
    rw [dif_neg (by simp)]
  | b :: L, h => by
    have hb : b.length = 32 := h b (by simp)
    rw [List.flatten_cons, chunksExact32]
    rw [dif_pos (by rw [List.length_append, hb]; omega)]
    rw [List.take_left' hb, List.drop_left' hb]
    rw [chunksExact32_flatten L (fun v hv => h v (by simp [hv]))]

theorem leVal_lt_pow64 (lc : Nat) (h : lc < 2 ^ 32) : lc % 256 ^ 8 = lc := by
  apply Nat.mod_eq_of_lt
  have : (2 : Nat) ^ 32 < 256 ^ 8 := by norm_num
  omega

end Zair

namespace Zair

/-! ## Canonicalisation failure -/

theorem canonicalize_chain_error (set : String) (C : List Bytes)
    (h : ∃ b ∈ C, ¬ leVal b < pallasP) :
    canonicalize_orchard_chain_nullifiers set C
      = .error (.NonCanonicalOrchardNullifier set
          (C.findIdx (fun b => !decide (leVal b < pallasP)))) := by
  unfold canonicalize_orchard_chain_nullifiers
  rw [canonOrchardGo_error set C 0 h]
  simp only [Except.map, Nat.zero_add]

theorem canonicalize_user_error (set : String) (U : List Bytes)
    (h : ∃ b ∈ U, ¬ leVal b < pallasP) :
    canonicalize_orchard_user_nullifiers set U
      = .error (.NonCanonicalOrchardNullifier set
          (U.findIdx (fun b => !decide (leVal b < pallasP)))) := by
  unfold canonicalize_orchard_user_nullifiers
  rw [canonOrchardGo_error set U 0 h]
  simp only [Except.map, Nat.zero_add]

theorem from_chain_bad_chain (C U : List Bytes)
    (h : ∃ b ∈ C, ¬ leVal b < pallasP) :
    from_chain_and_user_nullifiers C U
      = .error (.NonCanonicalOrchardNullifier "chain"
          (C.findIdx (fun b => !decide (leVal b < pallasP)))) := by
  unfold from_chain_and_user_nullifiers
  rw [canonicalize_chain_error "chain" C h]

theorem from_chain_bad_user (C U : List Bytes)
    (hC : ∀ b ∈ C, leVal b < pallasP)
    (h : ∃ b ∈ U, ¬ leVal b < pallasP) :
    from_chain_and_user_nullifiers C U
      = .error (.NonCanonicalOrchardNullifier "user"
          (U.findIdx (fun b => !decide (leVal b < pallasP)))) := by
  unfold from_chain_and_user_nullifiers
  have hok : canonOrchardGo "chain" 0 C = .ok (C.map (fun b => ⟨b, leVal b⟩)) :=
    canonOrchardGo_ok "chain" C 0 hC
  unfold canonicalize_orchard_chain_nullifiers
  rw [hok]
  rw [canonicalize_user_error "user" U h]
  rfl

end Zair

namespace Zair

theorem witnessLevels_length (t : DenseGapTree) (e : Nat → Bytes) :
    ∀ (r i l : Nat), (witnessLevels t e i l r).length = r
  | 0, _, _ => rfl
  | r + 1, i, l => by
    show (witnessLevels t e i l (r + 1)).length = r + 1
    unfold witnessLevels
    rw [List.length_cons, witnessLevels_length t e r (i / 2) (l + 1)]

/-- `from_bytes` with its intermediate `let` bindings expanded. -/
theorem from_bytes_spec (bs : Bytes) :
    DenseGapTree.from_bytes bs
      = if bs.length < 8 then .error (.Unexpected "gap-tree file is too short")
        else match validate_leaf_count (leVal (bs.take 8)) with
          | .error e => .error e
          | .ok _ =>
            if bs.length ≠ 8 + totalNodes (leVal (bs.take 8)) * 32 then
              .error (.Unexpected "gap-tree file length mismatch")
            else DenseGapTree.from_nodes (leVal (bs.take 8))
                (totalNodes (leVal (bs.take 8))) (chunksExact32 (bs.drop 8)) := by
  unfold DenseGapTree.from_bytes
  by_cases h : bs.length < 8
  · rw [if_pos h]
  · rw [if_neg h]

end Zair

namespace Zair

/-! ## The claims -/

/-- C6 (as amended): `build_merkle_tree` on the empty nullifier slice succeeds
and yields the empty tree, whose backend root is `None` — by the repository's
own `build_merkle_tree_empty` test — rather than an all-zero 32-byte hash. -/
theorem C6_empty_build_root_none {H : Type} (hash : Bytes → H) (combine : H → H → H) :
    build_merkle_tree hash [] = .ok ⟨[]⟩
    ∧ RsMerkleTree.root (⟨[]⟩ : RsMerkleTree H) combine = none := ⟨rfl, rfl⟩

/-- C6 counterexample: the empty build succeeds, but its root is `None`, not
the all-zero 32-byte hash the claim names. -/
theorem C6_counterexample :
    build_merkle_tree (fun b => b) [] = .ok (⟨[]⟩ : RsMerkleTree Bytes)
    ∧ RsMerkleTree.root (⟨[]⟩ : RsMerkleTree Bytes) build_leaf
        ≠ some (List.replicate 32 0) := by
  refine ⟨rfl, ?_⟩
  intro hc
  exact Option.noConfusion hc

/-- C7: a non-empty unsorted nullifier slice is rejected with `NotSorted` and
no tree is constructed, while the same input passed through sanitisation
(sort and deduplicate) is sorted and builds successfully. -/
theorem C7_unsorted_rejected {H : Type} (hash : Bytes → H) (S : List Bytes)
    (hne : S ≠ []) (hbad : is_sorted S = false) :
    build_merkle_tree hash S = .error .NotSorted
    ∧ is_sorted (sanitise S) = true
    ∧ ∃ t, build_merkle_tree hash (sanitise S) = .ok t := by
  refine ⟨?_, is_sorted_sanitise S, build_merkle_tree_sorted_ok hash _ (is_sorted_sanitise S)⟩
  cases S with
  | nil => exact absurd rfl hne
  | cons first rest =>
    unfold build_merkle_tree
    simp [hbad]

/-- C10: on an error-free finite stream, `partition_by_pool` returns exactly the
Sapling-tagged nullifiers and the Orchard-tagged nullifiers, each as the
subsequence of the stream in stream order. -/
theorem C10_partition_by_pool {E : Type} :
    ∀ (L : List PoolNullifier),
      partition_by_pool (E := E) (L.map Except.ok)
        = .ok ((L.filter (fun pn => decide (pn.pool = Pool.Sapling))).map PoolNullifier.nullifier,
               (L.filter (fun pn => decide (pn.pool = Pool.Orchard))).map PoolNullifier.nullifier)
  | [] => rfl
  | pn :: L => by
    rw [List.map_cons]
    unfold partition_by_pool
    rw [C10_partition_by_pool L]
    obtain ⟨pool, nf⟩ := pn
    cases pool with
    | Sapling => simp
    | Orchard => simp

/-- C4: an Orchard input set containing a 32-byte value whose little-endian
value is at least the pallas modulus makes canonicalisation fail with
`NonCanonicalOrchardNullifier` carrying the set label and the index of the
first offending nullifier in the original set, and the fused build propagates
the error, so no tree is built. -/
theorem C4_non_canonical_rejected (C U V W : List Bytes)
    (hbadC : ∃ b ∈ C, pallasP ≤ leVal b)
    (hbadU : ∃ b ∈ U, pallasP ≤ leVal b)
    (hW : ∀ b ∈ W, leVal b < pallasP) :
    canonicalize_orchard_chain_nullifiers "chain" C
      = .error (.NonCanonicalOrchardNullifier "chain"
          (C.findIdx (fun b => !decide (leVal b < pallasP))))
    ∧ from_chain_and_user_nullifiers C V
        = .error (.NonCanonicalOrchardNullifier "chain"
            (C.findIdx (fun b => !decide (leVal b < pallasP))))
    ∧ canonicalize_orchard_user_nullifiers "user" U
        = .error (.NonCanonicalOrchardNullifier "user"
            (U.findIdx (fun b => !decide (leVal b < pallasP))))
    ∧ from_chain_and_user_nullifiers W U
        = .error (.NonCanonicalOrchardNullifier "user"
            (U.findIdx (fun b => !decide (leVal b < pallasP)))) := by
  have hC' : ∃ b ∈ C, ¬ leVal b < pallasP := by
    obtain ⟨b, hb, hv⟩ := hbadC
    exact ⟨b, hb, by omega⟩
  have hU' : ∃ b ∈ U, ¬ leVal b < pallasP := by
    obtain ⟨b, hb, hv⟩ := hbadU
    exact ⟨b, hb, by omega⟩
  exact ⟨canonicalize_chain_error "chain" C hC', from_chain_bad_chain C V hC',
    canonicalize_user_error "user" U hU', from_chain_bad_user W U hW hU'⟩

end Zair

namespace Zair

/-- C1: for every dense gap tree built by `from_leaves` from a non-empty leaf
list of fewer than `2^32` leaves and every position `p < leaf_count`,
recomputing the root from the leaf at `p` and the 32 sibling hashes of
`witness_bytes p` — combining at each level with the internal hash, the stored
sibling when inside the level's width and `empty_root level` otherwise,
left/right by the parity of the index — reproduces the stored root. -/
theorem C1_dense_witness_correct {α : Type} (empty_root : Nat → α)
    (combine : Nat → α → α → α) (to_bytes : α → Bytes)
    (combineB : Nat → Bytes → Bytes → Bytes)
    (hcomm : ∀ lv a b, combineB lv (to_bytes a) (to_bytes b) = to_bytes (combine lv a b))
    (leaves : List α) (t : DenseGapTree)
    (hfl : DenseGapTree.from_leaves empty_root combine to_bytes leaves = .ok t)
    (p : Nat) (hp : p < t.leaf_count) (x : α) (hx : leaves[p]? = some x)
    (w : List Bytes)
    (hw : t.witness_bytes p (fun lv => to_bytes (empty_root lv)) = .ok w) :
    w.length = 32 ∧ recomputeRoot combineB 0 p (to_bytes x) w = t.root := by
  have h0 : ¬ leaves.length = 0 := by
    intro h0
    unfold DenseGapTree.from_leaves validate_leaf_count at hfl
    rw [if_pos h0] at hfl
    exact Except.noConfusion hfl
  have hlt : ¬ leaves.length ≥ 2 ^ 32 := by
    intro hge
    unfold DenseGapTree.from_leaves validate_leaf_count at hfl
    rw [if_neg h0, if_pos hge] at hfl
    exact Except.noConfusion hfl
  have hlen32 : (buildLevel combine empty_root leaves 32).length = 1 := by
    rw [buildLevel_length]
    exact widthAt_32 _ (by omega) (by omega)
  have htop : (buildLevel combine empty_root leaves 32)[0]?
      = some ((buildLevel combine empty_root leaves 32).getD 0 (empty_root 0)) := by
    rw [List.getElem?_eq_getElem (by omega), List.getD_eq_getElem _ _ (by omega)]
  rw [from_leaves_eq empty_root combine to_bytes leaves (by omega) (by omega) _ htop] at hfl
  have hinj := Except.ok.inj hfl
  subst hinj
  have hp' : p < leaves.length := hp
  unfold DenseGapTree.witness_bytes at hw
  rw [if_neg (by omega)] at hw
  have hwinj := Except.ok.inj hw
  rw [← hwinj]
  constructor
  · exact witnessLevels_length _ _ 32 p 0
  · exact witness_recompute empty_root combine to_bytes leaves combineB hcomm
      _ rfl rfl (by omega) (by omega) _ htop 32 0 p x rfl hx

/-- C5: the gap tree over a non-empty chain set has exactly one more leaf than
the set — the front gap, one gap per adjacent pair and the back gap — for the
generic builder, and the fused Orchard build records `|chain| + 1` gap
leaves. -/
theorem C5_gap_count {H : Type} (hash : Bytes → H) (S : List Bytes) (hne : S ≠ [])
    (t : RsMerkleTree H) (ht : build_merkle_tree hash S = .ok t)
    (C U : List Bytes)
    (hCcan : ∀ b ∈ C, leVal b < pallasP) (hUcan : ∀ b ∈ U, leVal b < pallasP)
    (hCs : List.Chain' (fun a b => orchard_cmp a b = .lt) C)
    (hUs : List.Chain' (fun a b => orchard_cmp a b = .lt) U)
    (ot : OrchardNonMembershipTree) (om : List TreePosition)
    (hot : from_chain_and_user_nullifiers C U = .ok (ot, om)) :
    t.leaves.length = S.length + 1 ∧ ot.leaf_count = C.length + 1 := by
  constructor
  · cases S with
    | nil => exact absurd rfl hne
    | cons first rest =>
      unfold build_merkle_tree at ht
      by_cases hs : is_sorted (first :: rest) = true
      · simp [hs] at ht
        rw [← ht]
        simp only [List.length_cons, List.length_append, List.length_map, List.length_zip,
          List.length_nil]
        omega
      · have hs2 : is_sorted (first :: rest) = false := by
          cases h : is_sorted (first :: rest)
          · rfl
          · exact absurd h hs
        simp [hs2] at ht
  · rw [from_chain_sorted_eq C U hCcan hUcan hCs hUs] at hot
    have hinj := Except.ok.inj hot
    exact (congrArg (fun p => p.1.leaf_count) hinj).symm

/-- C8: the dense tree serialises as the little-endian `u64` leaf count
followed by the nodes in level order; `from_bytes` inverts `to_bytes` on every
well-formed tree, and accepts a byte string only when the declared leaf count
is in `[1, 2^32)` and the length equals `8 + total_nodes · 32` for the layout
the declared count predicts. -/
theorem C8_serialisation_roundtrip (t : DenseGapTree)
    (h1 : 1 ≤ t.leaf_count) (h2 : t.leaf_count < 2 ^ 32)
    (hn : t.nodes.length = totalNodes t.leaf_count)
    (hwf : ∀ b ∈ t.nodes, b.length = 32)
    (hroot : t.nodes.getLast? = some t.root) :
    t.to_bytes = leBytes 8 t.leaf_count ++ t.nodes.flatten
    ∧ t.to_bytes.length = 8 + totalNodes t.leaf_count * 32
    ∧ DenseGapTree.from_bytes t.to_bytes = .ok t
    ∧ (∀ bs : Bytes, leVal (bs.take 8) = 0 ∨ 2 ^ 32 ≤ leVal (bs.take 8) →
        ∀ u, ¬ DenseGapTree.from_bytes bs = .ok u)
    ∧ (∀ bs : Bytes, ¬ bs.length = 8 + totalNodes (leVal (bs.take 8)) * 32 →
        ∀ u, ¬ DenseGapTree.from_bytes bs = .ok u) := by
  have hlen8 : (leBytes 8 t.leaf_count).length = 8 := leBytes_length 8 _
  have htake : (leBytes 8 t.leaf_count ++ t.nodes.flatten).take 8 = leBytes 8 t.leaf_count :=
    List.take_left' hlen8
  have hdrop : (leBytes 8 t.leaf_count ++ t.nodes.flatten).drop 8 = t.nodes.flatten :=
    List.drop_left' hlen8
  have hflat : t.nodes.flatten.length = t.nodes.length * 32 := flatten_length_const _ hwf
  have hlenT : (leBytes 8 t.leaf_count ++ t.nodes.flatten).length
      = 8 + totalNodes t.leaf_count * 32 := by
    rw [List.length_append, hlen8, hflat, hn]
  have hlc : leVal ((leBytes 8 t.leaf_count ++ t.nodes.flatten).take 8) = t.leaf_count := by
    rw [htake, leVal_leBytes]
    exact leVal_lt_pow64 _ h2
  refine ⟨rfl, hlenT, ?_, ?_, ?_⟩
  · show DenseGapTree.from_bytes (leBytes 8 t.leaf_count ++ t.nodes.flatten) = .ok t
    rw [from_bytes_spec]
    rw [if_neg (by rw [hlenT]; omega)]
    rw [hlc]
    have hval : validate_leaf_count t.leaf_count = .ok () := by
      unfold validate_leaf_count
      rw [if_neg (by omega), if_neg (by omega)]
    rw [hval]
    rw [if_neg (by rw [hlenT]; omega)]
    rw [hdrop, chunksExact32_flatten t.nodes hwf]
    unfold DenseGapTree.from_nodes
    rw [if_neg (by rw [hn]; omega)]
    rw [hroot]
  · intro bs hbad u hc
    rw [from_bytes_spec] at hc
    by_cases hlen : bs.length < 8
    · rw [if_pos hlen] at hc
      exact Except.noConfusion hc
    · rw [if_neg hlen] at hc
      have hval : ∃ e, validate_leaf_count (leVal (bs.take 8)) = .error e := by
        unfold validate_leaf_count
        rcases hbad with h0 | hge
        · exact ⟨_, by rw [if_pos h0]⟩
        · exact ⟨_, by rw [if_neg (by omega), if_pos (by omega)]⟩
      obtain ⟨e, he⟩ := hval
      rw [he] at hc
      exact Except.noConfusion hc
  · intro bs hbad u hc
    rw [from_bytes_spec] at hc
    have hlen : ¬ bs.length < 8 := by
      intro hlt
      rw [if_pos hlt] at hc
      exact Except.noConfusion hc
    rw [if_neg hlen] at hc
    cases hv : validate_leaf_count (leVal (bs.take 8)) with
    | error e =>
      rw [hv] at hc
      exact Except.noConfusion hc
    | ok uu =>
      rw [hv] at hc
      rw [if_pos hbad] at hc
      exact Except.noConfusion hc

end Zair

namespace Zair

/-- C3: Orchard nullifiers are ordered as field elements — comparing the
32-byte little-endian encodings from the most significant byte (index 31)
downward equals comparing the encoded values — the final gap's right bound is
the canonical little-endian encoding of `p − 1` and not `0xFF…FF`, and with
`chain = [field(256)]` and `user = [field(1)]` the user nullifier maps to gap 0
with left bound `MIN` and right bound `field(256)`. -/
theorem C3_orchard_order_and_max (a b : Bytes) (ha : nfWF a) (hb : nfWF b) :
    orchard_cmp a b = lexCmp a.reverse b.reverse
    ∧ orchard_cmp a b = natCmp (leVal a) (leVal b)
    ∧ orchard_max_nullifier = leBytes 32 (pallasP - 1)
    ∧ leVal orchard_max_nullifier = pallasP - 1
    ∧ orchard_max_nullifier ≠ List.replicate 32 255
    ∧ (∀ (chain : List CanonicalOrchardNullifier) (minN maxN : Nat),
        (orchard_gap_bounds chain chain.length minN orchard_max_nullifier maxN).right_nf
          = orchard_max_nullifier)
    ∧ from_chain_and_user_nullifiers [0 :: 1 :: List.replicate 30 0]
        [1 :: List.replicate 31 0]
        = .ok (⟨[(0, 256), (256, pallasP - 1)], [0], 2⟩,
            [⟨1 :: List.replicate 31 0, 0, minNullifier, 0 :: 1 :: List.replicate 30 0⟩]) := by
  refine ⟨rfl, orchard_cmp_eq_natCmp_leVal a b ha hb, ?_, leVal_orchard_max, ?_, ?_, ?_⟩
  · show leBytes 32 (pallasSub 0 1) = leBytes 32 (pallasP - 1)
    rw [pallasSub_zero_one]
  · intro hc
    have := congrArg leVal hc
    rw [leVal_orchard_max] at this
    revert this
    decide
  · intro chain minN maxN
    unfold orchard_gap_bounds
    by_cases hc : chain = []
    · rw [if_pos hc]
    · rw [if_neg hc]
      have hlen : chain.length ≠ 0 := fun h => hc (List.length_eq_zero.mp h)
      rw [if_neg hlen, if_pos rfl]
  · rfl

/-- C2 counterexample: the all-zero `MIN` sentinel value is not a member of the
empty chain set, yet in the Sapling mapping its single `TreePosition` has
`left_bound = MIN = u`, which does not strictly bracket `u`; and the fused
Orchard build returns no `TreePosition` for it at all. -/
theorem C2_counterexample :
    map_sapling_user_positions [] [minNullifier]
      = [⟨minNullifier, 0, minNullifier, maxNullifier⟩]
    ∧ ¬ lexLt minNullifier minNullifier
    ∧ from_chain_and_user_nullifiers [] [minNullifier]
        = .ok (⟨[(0, pallasP - 1)], [], 1⟩, []) := by
  refine ⟨by decide, ?_, rfl⟩
  intro hc
  unfold lexLt at hc
  rw [lexCmp_refl] at hc
  exact Ordering.noConfusion hc

/-- C2 (as amended): for sorted duplicate-free pool-canonicalised chain and
user sets, the user mapping drops every user nullifier that is a chain member,
and maps every user nullifier that is not a chain member *and lies strictly
between the pool's `MIN` and `MAX` sentinels* to exactly one `TreePosition`,
whose `leaf_position` is the gap index and whose bounds strictly bracket it
under the pool's order. (Sentinel-valued non-members are the exceptions the
original claim missed: Sapling emits them with a non-strict bound, Orchard
drops them.) -/
theorem C2_user_gap_mapping
    (Cs Us : List Bytes) (hCsC : List.Chain' lexLt Cs) (hUsC : List.Chain' lexLt Us)
    (us : Bytes) (hus : us ∈ Us)
    (Co Uo : List Bytes)
    (hCowf : ∀ b ∈ Co, nfWF b) (hUowf : ∀ b ∈ Uo, nfWF b)
    (hCocan : ∀ b ∈ Co, leVal b < pallasP) (hUocan : ∀ b ∈ Uo, leVal b < pallasP)
    (hCoC : List.Chain' (fun a b => orchard_cmp a b = .lt) Co)
    (hUoC : List.Chain' (fun a b => orchard_cmp a b = .lt) Uo)
    (uo : Bytes) (huo : uo ∈ Uo)
    (tree : OrchardNonMembershipTree) (mapping : List TreePosition)
    (hok : from_chain_and_user_nullifiers Co Uo = .ok (tree, mapping)) :
    ((us ∈ Cs →
        (map_sapling_user_positions Cs Us).filter (fun tp => decide (tp.nullifier = us)) = [])
     ∧ (us ∉ Cs → lexLt minNullifier us → lexLt us maxNullifier →
        (map_sapling_user_positions Cs Us).filter (fun tp => decide (tp.nullifier = us))
          = [⟨us, countLt lexCmp Cs us, (sapling_gap_bounds Cs (countLt lexCmp Cs us)).1,
              (sapling_gap_bounds Cs (countLt lexCmp Cs us)).2⟩]
        ∧ lexLt (sapling_gap_bounds Cs (countLt lexCmp Cs us)).1 us
        ∧ lexLt us (sapling_gap_bounds Cs (countLt lexCmp Cs us)).2))
    ∧ ((uo ∈ Co → mapping.filter (fun tp => decide (tp.nullifier = uo)) = [])
       ∧ (uo ∉ Co → orchard_cmp minNullifier uo = .lt →
          orchard_cmp uo orchard_max_nullifier = .lt →
          mapping.filter (fun tp => decide (tp.nullifier = uo))
            = [⟨uo, countLt orchard_cmp Co uo,
                orchardBnd (Co.map (fun b => (⟨b, leVal b⟩ : CanonicalOrchardNullifier)))
                  (countLt orchard_cmp Co uo),
                orchardBnd (Co.map (fun b => (⟨b, leVal b⟩ : CanonicalOrchardNullifier)))
                  (countLt orchard_cmp Co uo + 1)⟩]
          ∧ orchard_cmp
              (orchardBnd (Co.map (fun b => (⟨b, leVal b⟩ : CanonicalOrchardNullifier)))
                (countLt orchard_cmp Co uo)) uo = .lt
          ∧ orchard_cmp uo
              (orchardBnd (Co.map (fun b => (⟨b, leVal b⟩ : CanonicalOrchardNullifier)))
                (countLt orchard_cmp Co uo + 1)) = .lt)) := by
  refine ⟨map_sapling_spec Cs Us hCsC hUsC us hus, ?_⟩
  have h := orchard_fused_spec Co Uo hCowf hUowf hCocan hUocan hCoC hUoC uo huo
    tree mapping hok
  exact ⟨h.2.1, h.2.2⟩

end Zair

namespace Zair

/-- C9 counterexample: the Orchard `nullifier` field is serialised with
`ReversedHex`, not forward hex, and the Sapling `merkle_proof` field with
forward `Hex`, not reversed hex — refuting both halves of the claim. -/
theorem C9_counterexample :
    ((OrchardPrivateInputs.jsonByteFields
        ⟨1 :: List.replicate 31 0, 1 :: List.replicate 31 0, 1 :: List.replicate 31 0,
         1 :: List.replicate 31 0, 0, [1, 2]⟩).lookup "nullifier")
      ≠ some (hexEncode (1 :: List.replicate 31 0))
    ∧ ((SaplingPrivateInputs.jsonByteFields
        ⟨1 :: List.replicate 31 0, 1 :: List.replicate 31 0, 0, 1 :: List.replicate 31 0,
         1 :: List.replicate 31 0, 0, [1, 2]⟩).lookup "merkle_proof")
      ≠ some (reversedHexEncode [1, 2]) := by
  refine ⟨?_, ?_⟩ <;> decide

/-- C9 (as amended): every byte field of the private inputs is lower-case hex;
the Sapling `nullifier`, `note_commitment`, `left_nullifier` and
`right_nullifier` fields use reversed-byte hex while `merkle_proof` uses
forward hex, and the Orchard `nullifier`, `left_nullifier` and
`right_nullifier` fields use reversed-byte hex while `note_commitment` and
`merkle_proof` use forward hex. -/
theorem C9_private_input_hex (s : SaplingPrivateInputs) (o : OrchardPrivateInputs)
    (bs : Bytes) (hbs : ∀ x ∈ bs, x < 256) :
    s.jsonByteFields.lookup "nullifier" = some (reversedHexEncode s.nullifier)
    ∧ s.jsonByteFields.lookup "note_commitment" = some (reversedHexEncode s.note_commitment)
    ∧ s.jsonByteFields.lookup "left_nullifier" = some (reversedHexEncode s.left_nullifier)
    ∧ s.jsonByteFields.lookup "right_nullifier" = some (reversedHexEncode s.right_nullifier)
    ∧ s.jsonByteFields.lookup "merkle_proof" = some (hexEncode s.merkle_proof)
    ∧ o.jsonByteFields.lookup "nullifier" = some (reversedHexEncode o.nullifier)
    ∧ o.jsonByteFields.lookup "note_commitment" = some (hexEncode o.note_commitment)
    ∧ o.jsonByteFields.lookup "left_nullifier" = some (reversedHexEncode o.left_nullifier)
    ∧ o.jsonByteFields.lookup "right_nullifier" = some (reversedHexEncode o.right_nullifier)
    ∧ o.jsonByteFields.lookup "merkle_proof" = some (hexEncode o.merkle_proof)
    ∧ reversedHexEncode bs = hexEncode bs.reverse
    ∧ (∀ c ∈ hexEncode bs, (48 ≤ c ∧ c ≤ 57) ∨ (97 ≤ c ∧ c ≤ 102))
    ∧ (∀ c ∈ reversedHexEncode bs, (48 ≤ c ∧ c ≤ 57) ∨ (97 ≤ c ∧ c ≤ 102)) :=
  ⟨rfl, rfl, rfl, rfl, rfl, rfl, rfl, rfl, rfl, rfl, rfl,
   hexEncode_lower bs hbs,
   hexEncode_lower bs.reverse (fun x hx => hbs x (List.mem_reverse.mp hx))⟩

end Zair

namespace Zair

/-- Concrete instance of the dense witness-recomputation theorem: two leaves,
sum-with-level hashing, position 0. -/
theorem C1_dense_witness_correct_witness :
    [[7], [1], [2], [3], [4], [5], [6], [7], [8], [9], [10], [11], [12], [13], [14],
     [15], [16], [17], [18], [19], [20], [21], [22], [23], [24], [25], [26], [27],
     [28], [29], [30], [31]].length = 32
    ∧ recomputeRoot (fun lv x y => [x.headD 0 + y.headD 0 + lv]) 0 0 [5]
        [[7], [1], [2], [3], [4], [5], [6], [7], [8], [9], [10], [11], [12], [13], [14],
         [15], [16], [17], [18], [19], [20], [21], [22], [23], [24], [25], [26], [27],
         [28], [29], [30], [31]] = [1004] :=
  C1_dense_witness_correct (fun lv => lv) (fun lv a b => a + b + lv) (fun n => [n])
    (fun lv x y => [x.headD 0 + y.headD 0 + lv]) (fun _ _ _ => rfl) [5, 7]
    ⟨2, [[5], [7], [12], [14], [18], [24], [32], [42], [54], [68], [84], [102], [122],
      [144], [168], [194], [222], [252], [284], [318], [354], [392], [432], [474],
      [518], [564], [612], [662], [714], [768], [824], [882], [942], [1004]], [1004]⟩
    (by rfl) 0 (by decide) 5 rfl _ (by rfl)

/-- Concrete instance of the user-mapping theorem: one-element chain and user
sets on each pool, the user nullifier strictly inside gap 0. -/
theorem C2_user_gap_mapping_witness :
    (((List.replicate 31 0 ++ [1]) ∈ [List.replicate 31 0 ++ [2]] →
      (map_sapling_user_positions [List.replicate 31 0 ++ [2]]
          [List.replicate 31 0 ++ [1]]).filter
        (fun tp => decide (tp.nullifier = List.replicate 31 0 ++ [1])) = [])
    ∧ ((List.replicate 31 0 ++ [1]) ∉ [List.replicate 31 0 ++ [2]] →
        lexLt minNullifier (List.replicate 31 0 ++ [1]) →
        lexLt (List.replicate 31 0 ++ [1]) maxNullifier →
        (map_sapling_user_positions [List.replicate 31 0 ++ [2]]
            [List.replicate 31 0 ++ [1]]).filter
          (fun tp => decide (tp.nullifier = List.replicate 31 0 ++ [1]))
          = [⟨List.replicate 31 0 ++ [1],
              countLt lexCmp [List.replicate 31 0 ++ [2]] (List.replicate 31 0 ++ [1]),
              (sapling_gap_bounds [List.replicate 31 0 ++ [2]]
                (countLt lexCmp [List.replicate 31 0 ++ [2]] (List.replicate 31 0 ++ [1]))).1,
              (sapling_gap_bounds [List.replicate 31 0 ++ [2]]
                (countLt lexCmp [List.replicate 31 0 ++ [2]] (List.replicate 31 0 ++ [1]))).2⟩]
        ∧ lexLt (sapling_gap_bounds [List.replicate 31 0 ++ [2]]
            (countLt lexCmp [List.replicate 31 0 ++ [2]] (List.replicate 31 0 ++ [1]))).1
            (List.replicate 31 0 ++ [1])
        ∧ lexLt (List.replicate 31 0 ++ [1])
            (sapling_gap_bounds [List.replicate 31 0 ++ [2]]
              (countLt lexCmp [List.replicate 31 0 ++ [2]] (List.replicate 31 0 ++ [1]))).2))
    ∧ (((1 :: List.replicate 31 0) ∈ [2 :: List.replicate 31 0] →
        ([(⟨1 :: List.replicate 31 0, 0, minNullifier,
            2 :: List.replicate 31 0⟩ : TreePosition)]).filter
          (fun tp => decide (tp.nullifier = 1 :: List.replicate 31 0)) = [])
       ∧ ((1 :: List.replicate 31 0) ∉ [2 :: List.replicate 31 0] →
          orchard_cmp minNullifier (1 :: List.replicate 31 0) = .lt →
          orchard_cmp (1 :: List.replicate 31 0) orchard_max_nullifier = .lt →
          ([(⟨1 :: List.replicate 31 0, 0, minNullifier,
              2 :: List.replicate 31 0⟩ : TreePosition)]).filter
            (fun tp => decide (tp.nullifier = 1 :: List.replicate 31 0))
            = [⟨1 :: List.replicate 31 0,
                countLt orchard_cmp [2 :: List.replicate 31 0] (1 :: List.replicate 31 0),
                orchardBnd ([2 :: List.replicate 31 0].map
                    (fun b => (⟨b, leVal b⟩ : CanonicalOrchardNullifier)))
                  (countLt orchard_cmp [2 :: List.replicate 31 0] (1 :: List.replicate 31 0)),
                orchardBnd ([2 :: List.replicate 31 0].map
                    (fun b => (⟨b, leVal b⟩ : CanonicalOrchardNullifier)))
                  (countLt orchard_cmp [2 :: List.replicate 31 0]
                    (1 :: List.replicate 31 0) + 1)⟩]
          ∧ orchard_cmp (orchardBnd ([2 :: List.replicate 31 0].map
                (fun b => (⟨b, leVal b⟩ : CanonicalOrchardNullifier)))
              (countLt orchard_cmp [2 :: List.replicate 31 0] (1 :: List.replicate 31 0)))
              (1 :: List.replicate 31 0) = .lt
          ∧ orchard_cmp (1 :: List.replicate 31 0)
              (orchardBnd ([2 :: List.replicate 31 0].map
                  (fun b => (⟨b, leVal b⟩ : CanonicalOrchardNullifier)))
                (countLt orchard_cmp [2 :: List.replicate 31 0]
                  (1 :: List.replicate 31 0) + 1)) = .lt)) :=
  C2_user_gap_mapping [List.replicate 31 0 ++ [2]] [List.replicate 31 0 ++ [1]]
    (List.chain'_singleton _) (List.chain'_singleton _) (List.replicate 31 0 ++ [1])
    (by decide) [2 :: List.replicate 31 0] [1 :: List.replicate 31 0]
    (by intro b hb; rw [List.mem_singleton] at hb; subst hb; exact ⟨by decide, by decide⟩)
    (by intro b hb; rw [List.mem_singleton] at hb; subst hb; exact ⟨by decide, by decide⟩)
    (by decide) (by decide)
    (List.chain'_singleton _) (List.chain'_singleton _) (1 :: List.replicate 31 0)
    (by decide) ⟨[(0, 2), (2, pallasP - 1)], [0], 2⟩
    [⟨1 :: List.replicate 31 0, 0, minNullifier, 2 :: List.replicate 31 0⟩] (by rfl)

end Zair

namespace Zair

/-- Concrete instance of the Orchard order theorem: comparing `MIN` and the
`MAX` sentinel equals comparing their little-endian values. -/
theorem C3_orchard_order_and_max_witness :
    orchard_cmp minNullifier orchard_max_nullifier
      = natCmp (leVal minNullifier) (leVal orchard_max_nullifier) :=
  (C3_orchard_order_and_max minNullifier orchard_max_nullifier
    minNullifier_wf orchard_max_wf).2.1

/-- Concrete instance of the canonicalisation-failure theorem: the `0xFF…FF`
byte string is not a canonical pallas encoding, so the chain set `[0xFF…FF]`
is rejected at index 0. -/
theorem C4_non_canonical_rejected_witness :
    canonicalize_orchard_chain_nullifiers "chain" [maxNullifier]
      = .error (.NonCanonicalOrchardNullifier "chain"
          ([maxNullifier].findIdx (fun b => !decide (leVal b < pallasP)))) :=
  (C4_non_canonical_rejected [maxNullifier] [maxNullifier] [] []
    (by decide) (by decide) (by decide)).1

/-- Concrete instance of the gap-count theorem: one chain nullifier on each
side yields two gap leaves. -/
theorem C5_gap_count_witness :
    (⟨[build_leaf minNullifier [1], build_leaf [1] maxNullifier]⟩
        : RsMerkleTree Bytes).leaves.length = [([1] : Bytes)].length + 1
    ∧ (⟨[(0, 2), (2, pallasP - 1)], [], 2⟩ : OrchardNonMembershipTree).leaf_count
        = [2 :: List.replicate 31 0].length + 1 :=
  C5_gap_count (fun b => b) [[1]] (by decide)
    ⟨[build_leaf minNullifier [1], build_leaf [1] maxNullifier]⟩ (by rfl)
    [2 :: List.replicate 31 0] []
    (by intro b hb; rw [List.mem_singleton] at hb; subst hb; decide)
    (by intro b hb; exact absurd hb (List.not_mem_nil b))
    (List.chain'_singleton _) List.chain'_nil
    ⟨[(0, 2), (2, pallasP - 1)], [], 2⟩ [] (by rfl)

/-- Concrete instance of the unsorted-rejection theorem on `[[1], [0]]`. -/
theorem C7_unsorted_rejected_witness :
    build_merkle_tree (fun b => b) [[1], [0]] = .error .NotSorted
    ∧ is_sorted (sanitise [[1], [0]]) = true
    ∧ ∃ t, build_merkle_tree (fun b => b) (sanitise [[1], [0]]) = .ok t :=
  C7_unsorted_rejected (fun b => b) [[1], [0]] (by decide) (by rfl)

/-- Concrete instance of the serialisation round-trip on the one-leaf tree of
all-zero nodes. -/
theorem C8_serialisation_roundtrip_witness :
    DenseGapTree.from_bytes (DenseGapTree.to_bytes
        ⟨1, List.replicate 33 (List.replicate 32 0), List.replicate 32 0⟩)
      = .ok ⟨1, List.replicate 33 (List.replicate 32 0), List.replicate 32 0⟩ :=
  (C8_serialisation_roundtrip ⟨1, List.replicate 33 (List.replicate 32 0), List.replicate 32 0⟩
    (by decide) (by decide) (by decide) (by decide) (by decide)).2.2.1

/-- Concrete instance of the hex-encoding theorem: the Sapling `nullifier`
field of a concrete record is reversed hex. -/
theorem C9_private_input_hex_witness :
    (SaplingPrivateInputs.jsonByteFields ⟨[1], [2], 0, [3], [4], 0, [5]⟩).lookup "nullifier"
      = some (reversedHexEncode [1]) :=
  (C9_private_input_hex ⟨[1], [2], 0, [3], [4], 0, [5]⟩ ⟨[1], [2], [3], [4], 0, [5]⟩
    [0, 255] (by decide)).1

end Zair
